import Mathlib

/-!
# Atom feed handler (`app/handlers/feed.go`)

A shallow embedding of the `GlobalFeed` handler and of the library routines it
calls (`time.Time.After`, `time.Time.Format` for the layout
`2006-01-02T15:04:05-07:00`, `time.UnixMilli`, `fmt.Sprintf` with `%s` and `%d`,
`xml.MarshalIndent` over the five struct types of the file), followed by the
theorems about them.

Conventions of the embedding:
* Go strings are Lean strings (sequences of Unicode scalar values).
* Go `int` values are unbounded `Int`; the seconds of a `time.Time` are kept by
  Go as an `int64` count since January 1 of year 1, and `wrapInt64` is applied
  where `time.Unix` and `Time.After` work on that count.
* A `time.Time` is its instant (Unix seconds and nanoseconds) together with its
  location; monotonic clock readings are absent (times come from the database
  and from `time.UnixMilli`). Every value of type `time.Time` is
  `Time.representable`: its seconds since year 1 are an `int64`.
-/

namespace Feed

/-! ## `time` -/

/-- A `*time.Location`: the rule giving, for an instant in Unix seconds, the
offset in seconds east of UTC in effect at that instant. -/
structure Location where
  lookup : Int → Int

/-- The location `time.UTC`. -/
def UTC : Location := ⟨fun _ => 0⟩

/-- The location returned by `time.FixedZone`: the same offset at every instant. -/
def FixedZone (offset : Int) : Location := ⟨fun _ => offset⟩

/-- A `time.Time` without monotonic reading: `sec` seconds and `nsec`
nanoseconds since January 1, 1970 UTC, shown in location `loc`. -/
structure Time where
  sec : Int
  nsec : Int
  loc : Location

/-- The constant `unixToInternal`: the seconds from January 1 of year 1 to
January 1, 1970, `(1969*365 + 1969/4 - 1969/100 + 1969/400) * 86400`. -/
def unixToInternal : Int := 62135596800

/-- An integer as an `int64`: reduced modulo `2^64` into `[-2^63, 2^63)`. -/
def wrapInt64 (x : Int) : Int :=
  (x + 9223372036854775808) % 18446744073709551616 - 9223372036854775808

namespace Time

/-- `func (t *Time) sec() int64` for a time without monotonic reading: the
stored `int64` count of seconds since January 1 of year 1. -/
def internal (t : Time) : Int := wrapInt64 (t.sec + unixToInternal)

/-- Whether the time is a value of type `time.Time`: its seconds since
January 1 of year 1 are an `int64` and its nanoseconds are in `[0, 1e9)`. -/
def representable (t : Time) : Bool :=
  decide (-9223372036854775808 ≤ t.sec + unixToInternal)
    && decide (t.sec + unixToInternal ≤ 9223372036854775807)
    && decide (0 ≤ t.nsec) && decide (t.nsec < 1000000000)

/-- `func (t Time) After(u Time) bool`: `ts > us || ts == us && t.nsec() > u.nsec()`
with `ts := t.sec()` and `us := u.sec()`. -/
def After (t u : Time) : Bool :=
  decide (t.internal > u.internal)
    || (decide (t.internal = u.internal) && decide (t.nsec > u.nsec))

end Time

/-- `time.Unix(sec, nsec)` for the location `Local` of the running process:
the nanoseconds are normalised into `[0, 1e9)`, the seconds are stored as the
`int64` sum `sec + unixToInternal`, and the result is a local time. -/
def Unix (Local : Location) (sec nsec : Int) : Time :=
  { sec := wrapInt64 (sec + nsec / 1000000000 + unixToInternal) - unixToInternal,
    nsec := nsec % 1000000000, loc := Local }

/-- `time.UnixMilli(msec)`: `Unix(msec/1e3, (msec%1e3)*1e6)` with Go's truncating
division and remainder. -/
def UnixMilli (Local : Location) (msec : Int) : Time :=
  Unix Local (Int.tdiv msec 1000) (Int.tmod msec 1000 * 1000000)

def secondsPerDay : Int := 86400
def daysPer400Years : Int := 365 * 400 + 97
def daysPer100Years : Int := 365 * 100 + 24
def daysPer4Years : Int := 365 * 4 + 1

/-- The year of the absolute zero of package `time`. -/
def absoluteZeroYear : Int := -292277022399

/-- Days from the absolute zero (January 1 of `absoluteZeroYear`) to January 1, 1970:
`(1 - absoluteZeroYear) / 400` cycles of 400 years, then
`1969*365 + 1969/4 - 1969/100 + 1969/400` days from year 1 to 1970. -/
def unixToAbsoluteDays : Int := 730692556 * daysPer400Years + 719162

/-- `func isLeap(year int) bool`. -/
def isLeap (year : Int) : Bool :=
  decide (year % 4 = 0) && (decide (year % 100 ≠ 0) || decide (year % 400 = 0))

/-- The table `daysBefore`: `daysBefore m` is the number of days in a non-leap
year before month `m + 1`. -/
def daysBefore (m : Int) : Int :=
  if m = 0 then 0
  else if m = 1 then 31
  else if m = 2 then 59
  else if m = 3 then 90
  else if m = 4 then 120
  else if m = 5 then 151
  else if m = 6 then 181
  else if m = 7 then 212
  else if m = 8 then 243
  else if m = 9 then 273
  else if m = 10 then 304
  else if m = 11 then 334
  else 365

/-- The year and the day within the year (from 0) of `absDate`, for a count `d`
of days since the absolute zero. -/
def absYearDay (d : Int) : Int × Int :=
  -- Account for 400 year cycles.
  let n := d / daysPer400Years
  let y := 400 * n
  let d := d - daysPer400Years * n
  -- Cut off 100-year cycles; on the last day of the cycle the quotient is 4, cut
  -- back to 3 by subtracting n>>2.
  let n := d / daysPer100Years
  let n := n - n / 4
  let y := y + 100 * n
  let d := d - daysPer100Years * n
  -- Cut off 4-year cycles.
  let n := d / daysPer4Years
  let y := y + 4 * n
  let d := d - daysPer4Years * n
  -- Cut off years within a 4-year cycle.
  let n := d / 365
  let n := n - n / 4
  let y := y + n
  let d := d - 365 * n
  (y + absoluteZeroYear, d)

/-- The month (January is 1) and the day of the month of `absDate`, from the
year and the day within the year. -/
def monthDay (year yday : Int) : Int × Int :=
  if isLeap year && decide (yday = 31 + 29 - 1) then (2, 29)
  else
    let day := if isLeap year && decide (yday > 31 + 29 - 1) then yday - 1 else yday
    -- Estimate month on assumption that every month has 31 days; the estimate
    -- may be too low by at most one month, so adjust.
    let month := day / 31
    let fin := daysBefore (month + 1)
    if day ≥ fin then (month + 1 + 1, day - fin + 1)
    else (month + 1, day - daysBefore month + 1)

/-- The broken-down time that `Format` prints. -/
structure Civil where
  year : Int
  month : Int
  day : Int
  hour : Int
  min : Int
  sec : Int
  offset : Int

namespace Time

/-- The offset of the time's location at its instant (`t.locabs()`). -/
def zoneOffset (t : Time) : Int := t.loc.lookup t.sec

/-- The fields `Format` derives from `t.locabs()`: the date and the clock of the
instant shifted by the zone offset. -/
def civil (t : Time) : Civil :=
  let abs := t.sec + t.zoneOffset
  let yd := absYearDay (abs / secondsPerDay + unixToAbsoluteDays)
  let md := monthDay yd.1 yd.2
  let s := abs % secondsPerDay
  { year := yd.1, month := md.1, day := md.2,
    hour := s / 3600, min := s % 3600 / 60, sec := s % 60,
    offset := t.zoneOffset }

end Time

/-! ## Decimal printing -/

/-- The ASCII digit of `d % 10`. -/
def digitChar (d : Nat) : Char := Char.ofNat (48 + d % 10)

/-- Decimal digits of `n`, most significant first, prepended to `acc`; `fuel`
bounds the number of digits. -/
def natDigitsAux : Nat → Nat → List Char → List Char
  | 0, _, acc => acc
  | fuel + 1, n, acc =>
    if n < 10 then digitChar n :: acc
    else natDigitsAux fuel (n / 10) (digitChar n :: acc)

/-- Decimal digits of a natural number (`"0"` for zero). -/
def natDigits (n : Nat) : List Char := natDigitsAux (n + 1) n []

/-- `appendInt` of package `time` on an empty buffer: a minus sign for a
negative `x`, then the decimal digits of its absolute value, zero-padded on the
left to `width`. -/
def appendInt (x : Int) (width : Nat) : List Char :=
  let ds := natDigits x.natAbs
  (if x < 0 then ['-'] else []) ++ List.replicate (width - ds.length) '0' ++ ds

/-- The `-07:00` element of a layout (`stdNumColonTZ`): sign, hours and minutes
of the offset, which is first converted to minutes with truncation. -/
def appendZone (offset : Int) : List Char :=
  let zone := Int.tdiv offset 60
  (if zone < 0 then ['-'] else ['+'])
    ++ appendInt (Int.tdiv zone.natAbs 60) 2 ++ [':'] ++ appendInt (Int.tmod zone.natAbs 60) 2

/-- `t.Format("2006-01-02T15:04:05-07:00")`: the layout elements `2006`, `01`,
`02`, `15`, `04`, `05`, `-07:00` with the literal text between them. -/
def Time.Format (t : Time) : String :=
  let c := t.civil
  String.mk (appendInt c.year 4 ++ ['-'] ++ appendInt c.month 2 ++ ['-'] ++ appendInt c.day 2
    ++ ['T'] ++ appendInt c.hour 2 ++ [':'] ++ appendInt c.min 2 ++ [':'] ++ appendInt c.sec 2
    ++ appendZone c.offset)

/-- `%d` of `fmt.Sprintf` for an `int`. -/
def fmtInt (x : Int) : String :=
  String.mk ((if x < 0 then ['-'] else []) ++ natDigits x.natAbs)

/-! ## `app/handlers/feed.go` -/

/-- `func formatTime(t time.Time) string`. -/
def formatTime (t : Time) : String := t.Format

/-- `Content` of `feed.go`: attribute `type` (field `Type`, here `Typ`), character
data `Body`. -/
structure Content where
  Typ : String
  Body : String

/-- `Author` of `feed.go`. -/
structure Author where
  Name : String
  Uri : String
  Email : String
  InnerXML : String

/-- `Link` of `feed.go`; the field `Type` is `Typ` here, `Length` is a `uint`. -/
structure Link where
  Rel : String
  Href : String
  Typ : String
  HrefLang : String
  Title : String
  Length : Nat

/-- `Entry` of `feed.go`; the pointer fields are options. -/
structure Entry where
  Title : String
  Id : String
  Published : String
  Updated : String
  Link : List Feed.Link
  Author : Option Feed.Author
  Summary : Option Feed.Content
  Content : Option Feed.Content

/-- `AtomFeed` of `feed.go`. The element name of the `XMLName` field is fixed by
its tag and appears in `marshalFeed`. -/
structure AtomFeed where
  Title : String
  Subtitle : Content
  Id : String
  Updated : String
  Link : List Feed.Link
  Author : Option Feed.Author
  Entries : List Entry

/-! ## `encoding/xml` -/

/-- A Go `error` value. -/
abbrev Error := String

/-- The character `"`. -/
def quot : Char := Char.ofNat 34

/-- The apostrophe character. -/
def apos : Char := Char.ofNat 39

/-- `func isInCharacterRange(r rune) bool`: the `Char` production of the XML
specification. -/
def isInCharacterRange (r : Nat) : Bool :=
  r == 0x09 || r == 0x0A || r == 0x0D ||
    (decide (r ≥ 0x20) && decide (r ≤ 0xD7FF)) ||
    (decide (r ≥ 0xE000) && decide (r ≤ 0xFFFD)) ||
    (decide (r ≥ 0x10000) && decide (r ≤ 0x10FFFF))

/-- What `escapeText` (with `escapeNewline` set) writes for one rune. -/
def escapeRune (c : Char) : String :=
  if c = quot then "&#34;"
  else if c = apos then "&#39;"
  else if c = '&' then "&amp;"
  else if c = '<' then "&lt;"
  else if c = '>' then "&gt;"
  else if c = '\t' then "&#x9;"
  else if c = '\n' then "&#xA;"
  else if c = '\r' then "&#xD;"
  else if !isInCharacterRange c.toNat then String.singleton (Char.ofNat 0xFFFD)
  else String.singleton c

/-- `EscapeText` / `(*printer).EscapeString`: the escapes of the runes of `s`
in order. -/
def EscapeString (s : String) : String :=
  String.mk (s.data.flatMap fun c => (escapeRune c).data)

/-- `xml.Name`. -/
structure Name where
  Space : String
  Local : String
deriving DecidableEq

/-- `xml.Attr`; every attribute of the structs of `feed.go` has an empty name
space, so only the local name is kept. -/
structure Attr where
  Name : String
  Value : String
deriving DecidableEq

/-- What the marshaller hands to the printer, in order: `writeStart`,
escaped character data, text written raw (`innerxml`), `writeEnd`. -/
inductive Token where
  | StartElement (name : Name) (attr : List Attr)
  | CharData (s : String)
  | InnerXML (s : String)
  | EndElement (name : Name)
deriving DecidableEq

/-- The state of the `printer` of `marshal.go`: the buffer written so far, the
indentation settings and state, and the stack of open tags. -/
structure printer where
  out : String
  pfx : String
  indent : String
  depth : Int
  indentedIn : Bool
  putNewline : Bool
  tags : List Name

/-- The indentation text of one line: `pfx`, then `indent` `depth` times. -/
def indentText (pfx indent : String) (depth : Int) : String :=
  pfx ++ String.join (List.replicate depth.toNat indent)

/-- `func (p *printer) writeIndent(depthDelta int)`. -/
def printer.writeIndent (p : printer) (depthDelta : Int) : printer :=
  if p.pfx.length = 0 ∧ p.indent.length = 0 then p
  else
    let p := if depthDelta < 0 then { p with depth := p.depth - 1 } else p
    if depthDelta < 0 ∧ p.indentedIn = true then { p with indentedIn := false }
    else
      let p := if depthDelta < 0 then { p with indentedIn := false } else p
      let p := if p.putNewline then { p with out := p.out ++ "\n" }
               else { p with putNewline := true }
      let p := { p with out := p.out ++ indentText p.pfx p.indent p.depth }
      if depthDelta > 0 then { p with depth := p.depth + 1, indentedIn := true } else p

/-- The text of one attribute in a start tag. -/
def attrText (a : Attr) : String :=
  " " ++ a.Name ++ "=" ++ String.singleton quot ++ EscapeString a.Value ++ String.singleton quot

/-- The text of a start tag: the local name, the `xmlns` declaration when the
name has a name space, the attributes whose name is not empty. -/
def startTagText (name : Name) (attr : List Attr) : String :=
  "<" ++ name.Local
    ++ (if name.Space ≠ "" then
          " xmlns=" ++ String.singleton quot ++ EscapeString name.Space ++ String.singleton quot
        else "")
    ++ String.join ((attr.filter fun a => a.Name ≠ "").map attrText)
    ++ ">"

/-- `func (p *printer) writeStart(start *StartElement) error`. -/
def printer.writeStart (p : printer) (name : Name) (attr : List Attr) : Except Error printer :=
  if name.Local = "" then .error "xml: start tag with no name"
  else
    let p := { p with tags := p.tags ++ [name] }
    let p := p.writeIndent 1
    .ok { p with out := p.out ++ startTagText name attr }

/-- `func (p *printer) writeEnd(name Name) error`. -/
def printer.writeEnd (p : printer) (name : Name) : Except Error printer :=
  if name.Local = "" then .error "xml: end tag with no name"
  else
    match p.tags.getLast? with
    | none => .error ("xml: end tag </" ++ name.Local ++ "> without start tag")
    | some top =>
      if top.Local = "" then .error ("xml: end tag </" ++ name.Local ++ "> without start tag")
      else if top ≠ name then
        .error ("xml: end tag </" ++ name.Local ++ "> does not match start tag <" ++ top.Local ++ ">")
      else
        let p := { p with tags := p.tags.dropLast }
        let p := p.writeIndent (-1)
        .ok { p with out := p.out ++ "</" ++ name.Local ++ ">" }

/-- The printer's action for one token. -/
def printer.emit (p : printer) : Token → Except Error printer
  | .StartElement name attr => p.writeStart name attr
  | .CharData s => .ok { p with out := p.out ++ EscapeString s }
  | .InnerXML s => .ok { p with out := p.out ++ s }
  | .EndElement name => p.writeEnd name

/-- The printer's action for a sequence of tokens; the first error stops it. -/
def printer.emitAll (p : printer) : List Token → Except Error printer
  | [] => .ok p
  | t :: ts =>
    match p.emit t with
    | .error err => .error err
    | .ok q => q.emitAll ts

/-- `marshalValue` for a string field that is an element: nothing when the
field is `omitempty` and empty, otherwise the element with the string as text. -/
def marshalString (name : String) (omitempty : Bool) (v : String) : List Token :=
  if omitempty && decide (v = "") then []
  else [.StartElement ⟨"", name⟩ [], .CharData v, .EndElement ⟨"", name⟩]

/-- The attributes of a `Link`: `href` always, the others (`omitempty`) when not
empty, resp. not zero, in the order of the fields. -/
def linkAttrs (l : Link) : List Attr :=
  (if l.Rel = "" then [] else [⟨"rel", l.Rel⟩])
    ++ [⟨"href", l.Href⟩]
    ++ (if l.Typ = "" then [] else [⟨"type", l.Typ⟩])
    ++ (if l.HrefLang = "" then [] else [⟨"hreflang", l.HrefLang⟩])
    ++ (if l.Title = "" then [] else [⟨"title", l.Title⟩])
    ++ (if l.Length = 0 then [] else [⟨"length", String.mk (natDigits l.Length)⟩])

/-- `marshalValue` for one `Link` of a field tagged `link`. -/
def marshalLink (l : Link) : List Token :=
  [.StartElement ⟨"", "link"⟩ (linkAttrs l), .EndElement ⟨"", "link"⟩]

/-- `marshalValue` for an `*Author` field tagged `author`: nothing for nil. -/
def marshalAuthor : Option Author → List Token
  | none => []
  | some a =>
    [.StartElement ⟨"", "author"⟩ []]
      ++ marshalString "name" false a.Name
      ++ marshalString "uri" true a.Uri
      ++ marshalString "email" true a.Email
      ++ [.InnerXML a.InnerXML]
      ++ [.EndElement ⟨"", "author"⟩]

/-- `marshalValue` for a `Content` under the element name `name`. -/
def marshalContent (name : String) (c : Content) : List Token :=
  [.StartElement ⟨"", name⟩ [⟨"type", c.Typ⟩], .CharData c.Body, .EndElement ⟨"", name⟩]

/-- `marshalValue` for a `*Content` field: nothing for nil. -/
def marshalContentPtr (name : String) : Option Content → List Token
  | none => []
  | some c => marshalContent name c

/-- `marshalValue` for one `*Entry` of the field tagged `entry`: the fields in
the order of the struct. -/
def marshalEntry (e : Entry) : List Token :=
  [.StartElement ⟨"", "entry"⟩ []]
    ++ marshalString "title" false e.Title
    ++ marshalString "id" false e.Id
    ++ marshalString "published" false e.Published
    ++ marshalString "updated" true e.Updated
    ++ e.Link.flatMap marshalLink
    ++ marshalAuthor e.Author
    ++ marshalContentPtr "summary" e.Summary
    ++ marshalContentPtr "content" e.Content
    ++ [.EndElement ⟨"", "entry"⟩]

/-- `marshalValue` for an `*AtomFeed`: the element named by the tag of `XMLName`,
then the fields in the order of the struct. -/
def marshalFeed (f : AtomFeed) : List Token :=
  [.StartElement ⟨"http://www.w3.org/2005/Atom", "feed"⟩ []]
    ++ marshalString "title" false f.Title
    ++ marshalContent "subtitle" f.Subtitle
    ++ marshalString "id" false f.Id
    ++ marshalString "updated" false f.Updated
    ++ f.Link.flatMap marshalLink
    ++ marshalAuthor f.Author
    ++ f.Entries.flatMap marshalEntry
    ++ [.EndElement ⟨"http://www.w3.org/2005/Atom", "feed"⟩]

/-- `xml.MarshalIndent(v, pfx, indent)` for an `*AtomFeed`. -/
def MarshalIndent (v : AtomFeed) (pfx indent : String) : Except Error String :=
  let p : printer :=
    { out := "", pfx := pfx, indent := indent, depth := 0, indentedIn := false,
      putNewline := false, tags := [] }
  match p.emitAll (marshalFeed v) with
  | .error err => .error err
  | .ok q => .ok q.out

/-! ## The handler -/

/-- The fields of `entity.PostResponse` the handler reads. -/
structure PostResponse where
  RespondedAt : Time

/-- The fields of `entity.User` the handler reads. -/
structure User where
  Name : String

/-- The fields of `entity.Post` the handler reads; `Response` is a pointer that
may be nil. -/
structure Post where
  ID : Int
  Title : String
  Description : String
  CreatedAt : Time
  User : Feed.User
  Response : Option PostResponse

/-- The fields of `entity.Tenant` the handler reads. -/
structure Tenant where
  Name : String
  WelcomeMessage : String

/-- The query `query.SearchPosts` as the handler fills it. -/
structure SearchPosts where
  Query : String
  View : String
  Limit : String
  Tags : List String

/-- What the handler reads from its `*web.Context` and from the process:
the query parameters, the tenant, `web.BaseURL(c)`, the outcome of
`bus.Dispatch(c, searchPosts)` (the error, or the `Result` it stored) and the
location `time.Local`. -/
structure Context where
  QueryParam : String → String
  QueryParamAsArray : String → List String
  Tenant : Feed.Tenant
  BaseURL : String
  Dispatch : SearchPosts → Except Error (List Post)
  Local : Location

/-- How the handler ends: through `c.Failure(err)`, or through
`c.Blob(code, contentType, body)`. -/
inductive Outcome where
  | Failure (err : Error)
  | Blob (code : Nat) (contentType : String) (body : String)

/-- The value of the `Updated` field of an entry: the function literal of lines 99-104. -/
def entryUpdated (post : Post) : String :=
  match post.Response with
  | none => ""
  | some r => formatTime r.RespondedAt

/-- The `&Entry` literal of lines 95-111. -/
def newEntry (baseURL : String) (post : Post) : Entry :=
  { Title := post.Title,
    Author := some { Name := post.User.Name, Uri := "", Email := "", InnerXML := "" },
    Published := formatTime post.CreatedAt,
    Updated := entryUpdated post,
    Summary := some { Typ := "html", Body := post.Description },
    Content := none,
    Id := baseURL ++ "/posts/" ++ fmtInt post.ID,
    Link := [
      { Href := baseURL ++ "/feed/posts/" ++ fmtInt post.ID ++ ".atom",
        Typ := "application/atom+xml", Rel := "self", HrefLang := "", Title := "", Length := 0 },
      { Href := baseURL ++ "/posts/" ++ fmtInt post.ID,
        Typ := "text/html", Rel := "alternate", HrefLang := "", Title := "", Length := 0 }] }

/-- One iteration of the loop of lines 87-112 on the pair
`(lastUpdate, feed.Entries)`. -/
def loopBody (baseURL : String) (st : Time × List Entry) (post : Post) : Time × List Entry :=
  let lastUpdate := if post.CreatedAt.After st.1 then post.CreatedAt else st.1
  let lastUpdate :=
    match post.Response with
    | none => lastUpdate
    | some r => if r.RespondedAt.After lastUpdate then r.RespondedAt else lastUpdate
  (lastUpdate, st.2 ++ [newEntry baseURL post])

/-- The whole loop, started at `lastUpdate = time.UnixMilli(0)` and
`feed.Entries = []`. -/
def feedLoop (c : Context) (posts : List Post) : Time × List Entry :=
  posts.foldl (loopBody c.BaseURL) (UnixMilli c.Local 0, [])

/-- Lines 75-113 of `GlobalFeed`: the feed built from the posts of the query. -/
def buildFeed (c : Context) (posts : List Post) : AtomFeed :=
  let st := feedLoop c posts
  { Title := c.Tenant.Name,
    Subtitle := { Typ := "", Body := c.Tenant.WelcomeMessage },
    Id := c.BaseURL,
    Link := [
      { Href := c.BaseURL ++ "/feed.atom", Typ := "application/atom+xml", Rel := "self",
        HrefLang := "", Title := "", Length := 0 },
      { Href := c.BaseURL, Typ := "text/html", Rel := "alternate",
        HrefLang := "", Title := "", Length := 0 }],
    Author := none,
    Entries := st.2,
    Updated := formatTime st.1 }

/-- The XML declaration line the handler puts before the document. -/
def xmlHeader : String :=
  "<?xml version=" ++ String.singleton quot ++ "1.0" ++ String.singleton quot
    ++ " encoding=" ++ String.singleton quot ++ "utf-8" ++ String.singleton quot ++ "?>\n"

/-- `func GlobalFeed() web.HandlerFunc`: the handler it returns, applied to a
context. -/
def GlobalFeed (c : Context) : Outcome :=
  let searchPosts : SearchPosts :=
    { Query := c.QueryParam "query", View := "all", Limit := "30",
      Tags := c.QueryParamAsArray "tags" }
  match c.Dispatch searchPosts with
  | .error err => .Failure err
  | .ok posts =>
    let feed := buildFeed c posts
    match MarshalIndent feed "" "\t" with
    | .error err => .Failure err
    | .ok feedXML => .Blob 200 "application/atom+xml" (xmlHeader ++ feedXML)

end Feed

/-! ## Specification-side notions -/

namespace Feed

/-- The timestamps of one post in the order the loop reads them: the creation
time, then the response time when there is a response. -/
def postTimes (post : Post) : List Time :=
  post.CreatedAt :: (match post.Response with
    | none => []
    | some r => [r.RespondedAt])

/-- All creation and response timestamps of a post list. -/
def allTimes (posts : List Post) : List Time := posts.flatMap postTimes

/-- Whether `t` is a later instant than `u`. -/
def Time.laterThan (t u : Time) : Bool :=
  decide (t.sec > u.sec) || (decide (t.sec = u.sec) && decide (t.nsec > u.nsec))

/-- The search query the handler dispatches. -/
def searchQuery (c : Context) : SearchPosts :=
  { Query := c.QueryParam "query", View := "all", Limit := "30",
    Tags := c.QueryParamAsArray "tags" }

/-- The number of start tags with local name `name` in a token sequence. -/
def countStart (name : String) (toks : List Token) : Nat :=
  (toks.filter fun t =>
    match t with
    | .StartElement n _ => decide (n.Local = name)
    | _ => false).length

/-- Whether `l` is a run of exactly `k` ASCII digits. -/
def isDigits (k : Nat) (l : List Char) : Bool := decide (l.length = k) && l.all Char.isDigit

/-- A sample context: tenant Acme at `https://acme.example`, a query that
returns `posts`, a process running in location `Local`. -/
def sampleContext (Local : Location) (posts : List Post) : Context :=
  { QueryParam := fun _ => "", QueryParamAsArray := fun _ => [],
    Tenant := { Name := "Acme", WelcomeMessage := "Welcome" },
    BaseURL := "https://acme.example",
    Dispatch := fun _ => .ok posts,
    Local := Local }

/-- The post of the example scenario: id 1, "Idea A" by Alice, created
2023-01-01T00:00:00Z, no response. -/
def ideaA : Post :=
  { ID := 1, Title := "Idea A", Description := "", CreatedAt := ⟨1672531200, 0, UTC⟩,
    User := ⟨"Alice"⟩, Response := none }

/-- A post created 2023-01-01T00:00:00Z and answered 2023-01-02T03:46:40Z. -/
def ideaB : Post :=
  { ID := 2, Title := "Idea B", Description := "x < y", CreatedAt := ⟨1672531200, 0, UTC⟩,
    User := ⟨"Bob"⟩, Response := some ⟨⟨1672631200, 0, UTC⟩⟩ }

/-- A post created at the instant of `ideaA`, shown in a zone one hour east of UTC. -/
def ideaEast : Post :=
  { ID := 4, Title := "Idea East", Description := "", CreatedAt := ⟨1672531200, 0, FixedZone 3600⟩,
    User := ⟨"Dan"⟩, Response := none }

/-- A post created on 1969-12-31T00:00:00Z, one day before the Unix epoch, no response. -/
def oldPost : Post :=
  { ID := 3, Title := "Old", Description := "", CreatedAt := ⟨-86400, 0, UTC⟩,
    User := ⟨"Carol"⟩, Response := none }

/-- Whether every `<` of the text is followed by a character other than `?`. -/
def noPI : List Char → Bool
  | [] => true
  | c :: rest =>
    (c != '<' || (match rest with
      | [] => false
      | d :: _ => d != '?')) && noPI rest

/-- The printer is set up as by `MarshalIndent(v, "", "\t")`. -/
def printer.tabbed (p : printer) : Prop := p.pfx = "" ∧ p.indent = "\t"

/-- How `q` extends `p`: the settings and the open tags are the same, and the
text `w` was written. -/
def printer.wrote (q p : printer) (w : String) : Prop :=
  q.out = p.out ++ w ∧ q.pfx = p.pfx ∧ q.indent = p.indent ∧ q.tags = p.tags

/-- Whether an element name can open a tag: not empty, not starting with `?`,
free of `<`. -/
def goodName (s : String) : Bool :=
  match s.data with
  | [] => false
  | d :: r => d != '?' && (d :: r).all (· != '<')

/-- The printer set up as by `MarshalIndent(v, "", "\t")` runs through the
tokens without error, ends with the same open tags, and the text it writes has
no `<?`. -/
def Runs (toks : List Token) : Prop :=
  ∀ p : printer, p.tabbed → ∃ q : printer, ∃ w : String,
    p.emitAll toks = .ok q ∧ q.wrote p w ∧ noPI w.data = true

/-- The raw `InnerXML` of the author, when there is one, has no `<?`. -/
def rawFree (a : Option Author) : Prop := ∀ x, a = some x → noPI x.InnerXML.data = true

/-- A context whose query fails with the error `db down`. -/
def failingContext : Context :=
  { QueryParam := fun _ => "", QueryParamAsArray := fun _ => [],
    Tenant := { Name := "Acme", WelcomeMessage := "Welcome" },
    BaseURL := "https://acme.example",
    Dispatch := fun _ => .error "db down",
    Local := UTC }

/-- The number a run of decimal digits stands for. -/
def digitsValue (l : List Char) : Nat := l.foldl (fun a c => a * 10 + (c.toNat - 48)) 0

/-- The start tags of the child elements of the first element of a token
sequence, in order: the start tags met at depth 1, the depth being the number of
elements open before the token. -/
def childStarts : Nat → List Token → List Token
  | _, [] => []
  | d, .StartElement n a :: ts =>
    (if d = 1 then [.StartElement n a] else []) ++ childStarts (d + 1) ts
  | d, .EndElement _ :: ts => childStarts (d - 1) ts
  | d, _ :: ts => childStarts d ts

/-- The start tags of the children of the element a token sequence opens with. -/
def children (toks : List Token) : List Token := childStarts 0 toks

/-- The local names of the start tags of a token sequence. -/
def startNames (toks : List Token) : List String :=
  toks.filterMap fun t =>
    match t with
    | .StartElement n _ => some n.Local
    | _ => none

/-- The value of a hexadecimal digit. -/
def hexDigit (c : Char) : Option Nat :=
  if c.isDigit then some (c.toNat - 48)
  else if 'a' ≤ c ∧ c ≤ 'f' then some (c.toNat - 87)
  else if 'A' ≤ c ∧ c ≤ 'F' then some (c.toNat - 55)
  else none

/-- The number a run of hexadecimal digits stands for. -/
def hexValue (l : List Char) : Option Nat :=
  l.foldl (fun a c => a.bind fun n => (hexDigit c).map fun d => n * 16 + d) (some 0)

/-- The character with code `n`, when XML allows it. -/
def charOfCode (n : Nat) : Option Char :=
  if isInCharacterRange n then some (Char.ofNat n) else none

/-- What an XML parser reads for the reference `&name;`: one of the five
predefined entities, or a decimal or hexadecimal character reference. -/
def decodeRef (name : List Char) : Option Char :=
  if name = ['l', 't'] then some '<'
  else if name = ['g', 't'] then some '>'
  else if name = ['a', 'm', 'p'] then some '&'
  else if name = ['a', 'p', 'o', 's'] then some apos
  else if name = ['q', 'u', 'o', 't'] then some quot
  else
    match name with
    | '#' :: 'x' :: hex => if hex = [] then none else (hexValue hex).bind charOfCode
    | '#' :: dec =>
      if dec = [] ∨ dec.all Char.isDigit = false then none else charOfCode (digitsValue dec)
    | _ => none

/-- What an XML parser reads back from escaped character data or an attribute
value: references are decoded, other characters stand for themselves, a bare `<`
or an unfinished reference is an error. `pending` holds, reversed, the characters
of a reference read so far. -/
def unescapeFrom : Option (List Char) → List Char → Option (List Char)
  | none, [] => some []
  | some _, [] => none
  | none, c :: rest =>
    if c = '&' then unescapeFrom (some []) rest
    else if c = '<' then none
    else (unescapeFrom none rest).map (c :: ·)
  | some pending, c :: rest =>
    if c = ';' then
      match decodeRef pending.reverse with
      | none => none
      | some d => (unescapeFrom none rest).map (d :: ·)
    else unescapeFrom (some (c :: pending)) rest

/-- The text an XML parser reads back from escaped text. -/
def unescapeText (s : String) : Option String := (unescapeFrom none s.data).map String.mk

/-- The text with every character that XML does not allow replaced by U+FFFD. -/
def replaceInvalid (s : String) : String :=
  String.mk (s.data.map fun c => if isInCharacterRange c.toNat then c else Char.ofNat 0xFFFD)

/-- A post whose title is the control character U+0001. -/
def controlPost : Post :=
  { ID := 5, Title := String.singleton (Char.ofNat 1), Description := "",
    CreatedAt := ⟨1672531200, 0, UTC⟩, User := ⟨"Eve"⟩, Response := none }

/-- The document marshalled for the feed of tenant Acme with the one post `ideaB`. -/
def ideaBDocument : String :=
  "<feed xmlns=\"http://www.w3.org/2005/Atom\">\n"
    ++ "\t<title>Acme</title>\n"
    ++ "\t<subtitle type=\"\">Welcome</subtitle>\n"
    ++ "\t<id>https://acme.example</id>\n"
    ++ "\t<updated>2023-01-02T03:46:40+00:00</updated>\n"
    ++ "\t<link rel=\"self\" href=\"https://acme.example/feed.atom\" type=\"application/atom+xml\"></link>\n"
    ++ "\t<link rel=\"alternate\" href=\"https://acme.example\" type=\"text/html\"></link>\n"
    ++ "\t<entry>\n"
    ++ "\t\t<title>Idea B</title>\n"
    ++ "\t\t<id>https://acme.example/posts/2</id>\n"
    ++ "\t\t<published>2023-01-01T00:00:00+00:00</published>\n"
    ++ "\t\t<updated>2023-01-02T03:46:40+00:00</updated>\n"
    ++ "\t\t<link rel=\"self\" href=\"https://acme.example/feed/posts/2.atom\" type=\"application/atom+xml\"></link>\n"
    ++ "\t\t<link rel=\"alternate\" href=\"https://acme.example/posts/2\" type=\"text/html\"></link>\n"
    ++ "\t\t<author>\n"
    ++ "\t\t\t<name>Bob</name>\n"
    ++ "\t\t</author>\n"
    ++ "\t\t<summary type=\"html\">x &lt; y</summary>\n"
    ++ "\t</entry>\n"
    ++ "</feed>"

/-- Whether a marshalling result is the document `s`. -/
def okIs (r : Except Error String) (s : String) : Bool :=
  match r with
  | .ok x => x == s
  | .error _ => false

/-! ## The loop -/

theorem After_iff (t u : Time) :
    t.After u = true ↔
      t.internal > u.internal ∨ (t.internal = u.internal ∧ t.nsec > u.nsec) := by
  simp [Time.After]

theorem laterThan_iff (t u : Time) :
    t.laterThan u = true ↔ t.sec > u.sec ∨ (t.sec = u.sec ∧ t.nsec > u.nsec) := by
  simp [Time.laterThan]

/-- The stored seconds of a representable time are its seconds since year 1. -/
theorem internal_of_representable {t : Time} (h : t.representable = true) :
    t.internal = t.sec + unixToInternal := by
  simp only [Time.representable, Bool.and_eq_true, decide_eq_true_eq] at h
  simp only [Time.internal, wrapInt64]
  omega

/-- On values of type `time.Time`, `After` is the order of the instants. -/
theorem After_eq_laterThan {t u : Time} (ht : t.representable = true)
    (hu : u.representable = true) : t.After u = t.laterThan u := by
  rw [Bool.eq_iff_iff, After_iff, laterThan_iff, internal_of_representable ht,
    internal_of_representable hu]
  constructor <;> intro h <;> omega

theorem UnixMilli_zero (Local : Location) : UnixMilli Local 0 = ⟨0, 0, Local⟩ := by
  simp [UnixMilli, Unix, wrapInt64, unixToInternal]

/-- Every result of `time.Unix` is a value of type `time.Time`. -/
theorem Unix_representable (Local : Location) (sec nsec : Int) :
    (Unix Local sec nsec).representable = true := by
  simp only [Time.representable, Unix, wrapInt64, Bool.and_eq_true, decide_eq_true_eq]
  omega

/-- The seconds of `time.Unix` wrap: the largest `int64` gives a time long before
the epoch. -/
theorem Unix_maxInt64_wraps :
    (Unix UTC 9223372036854775807 0).sec = -9223372036854775809
      ∧ (Unix UTC 9223372036854775807 0).After (UnixMilli UTC 0) = false := by
  decide

theorem UnixMilli_zero_representable (Local : Location) :
    (UnixMilli Local 0).representable = true := by
  rw [UnixMilli_zero]
  rfl

theorem After_irrefl (t : Time) : t.After t = false := by
  simp [Time.After]

/-- "Not later than" is transitive. -/
theorem not_After_trans {a b c : Time} (h1 : a.After b = false) (h2 : b.After c = false) :
    a.After c = false := by
  rw [Bool.eq_false_iff] at *
  rw [Ne, After_iff] at *
  omega

/-- The later of two times, as the loop picks it: `t` when it is strictly after
`acc`, otherwise `acc`. -/
theorem later_cases (t acc : Time) :
    ((if t.After acc then t else acc) = t ∧ t.After acc = true)
      ∨ ((if t.After acc then t else acc) = acc ∧ t.After acc = false) := by
  cases h : t.After acc <;> simp

theorem later_ge_acc (t acc : Time) : acc.After (if t.After acc then t else acc) = false := by
  cases h : t.After acc
  · simp [After_irrefl]
  · simp only [if_true]
    rw [Bool.eq_false_iff, Ne, After_iff]
    rw [After_iff] at h
    omega

theorem later_ge_new (t acc : Time) : t.After (if t.After acc then t else acc) = false := by
  cases h : t.After acc
  · simpa using h
  · simp [After_irrefl]

theorem loopBody_snd (b : String) (st : Time × List Entry) (post : Post) :
    (loopBody b st post).2 = st.2 ++ [newEntry b post] := rfl

theorem foldl_loopBody_snd (b : String) (posts : List Post) (st : Time × List Entry) :
    (posts.foldl (loopBody b) st).2 = st.2 ++ posts.map (newEntry b) := by
  induction posts generalizing st with
  | nil => simp
  | cons p ps ih => simp [List.foldl_cons, ih, loopBody_snd]

/-- One iteration keeps `lastUpdate` or replaces it by a timestamp of the post,
and the new value is not earlier than the old one nor than any timestamp of the post. -/
theorem loopBody_fst (b : String) (st : Time × List Entry) (post : Post) :
    ((loopBody b st post).1 = st.1 ∨ (loopBody b st post).1 ∈ postTimes post)
      ∧ st.1.After (loopBody b st post).1 = false
      ∧ ∀ u ∈ postTimes post, u.After (loopBody b st post).1 = false := by
  obtain ⟨acc, es⟩ := st
  cases hr : post.Response with
  | none =>
    simp only [loopBody, postTimes, hr]
    refine ⟨?_, later_ge_acc _ _, ?_⟩
    · rcases later_cases post.CreatedAt acc with h | h
      · right; simp [h.1]
      · left; exact h.1
    · intro u hu
      simp only [List.mem_singleton] at hu
      subst hu
      exact later_ge_new _ _
  | some r =>
    simp only [loopBody, postTimes, hr]
    refine ⟨?_, ?_, ?_⟩
    · rcases later_cases r.RespondedAt (if post.CreatedAt.After acc then post.CreatedAt else acc)
        with h | h
      · right; rw [h.1]; simp
      · rw [h.1]
        rcases later_cases post.CreatedAt acc with h2 | h2
        · right; rw [h2.1]; simp
        · left; exact h2.1
    · exact not_After_trans (later_ge_acc _ _) (later_ge_acc _ _)
    · intro u hu
      simp only [List.mem_cons, List.mem_singleton, List.not_mem_nil, or_false] at hu
      rcases hu with hu | hu
      · subst hu
        exact not_After_trans (later_ge_new _ _) (later_ge_acc _ _)
      · subst hu
        exact later_ge_new _ _

/-- The loop ends with `lastUpdate` equal to its start value or to a timestamp of
the list, not earlier than the start value nor than any timestamp of the list. -/
theorem foldl_loopBody_fst (b : String) (posts : List Post) (st : Time × List Entry) :
    ((posts.foldl (loopBody b) st).1 = st.1 ∨ (posts.foldl (loopBody b) st).1 ∈ allTimes posts)
      ∧ st.1.After (posts.foldl (loopBody b) st).1 = false
      ∧ ∀ u ∈ allTimes posts, u.After (posts.foldl (loopBody b) st).1 = false := by
  induction posts generalizing st with
  | nil => simp [allTimes, After_irrefl]
  | cons p ps ih =>
    obtain ⟨h1, h2, h3⟩ := ih (loopBody b st p)
    obtain ⟨g1, g2, g3⟩ := loopBody_fst b st p
    simp only [List.foldl_cons, allTimes, List.flatMap_cons, List.mem_append] at *
    refine ⟨?_, not_After_trans g2 h2, ?_⟩
    · rcases h1 with h1 | h1
      · rw [h1]
        rcases g1 with g1 | g1
        · left; exact g1
        · right; left; exact g1
      · right; right; exact h1
    · intro u hu
      rcases hu with hu | hu
      · exact not_After_trans (g3 u hu) h2
      · exact h3 u hu

theorem buildFeed_Entries (c : Context) (posts : List Post) :
    (buildFeed c posts).Entries = posts.map (newEntry c.BaseURL) := by
  simp [buildFeed, feedLoop, foldl_loopBody_snd]

theorem buildFeed_Updated (c : Context) (posts : List Post) :
    (buildFeed c posts).Updated
      = formatTime (posts.foldl (loopBody c.BaseURL) (UnixMilli c.Local 0, [])).1 := rfl

/-! ## C1: the feed-level `updated` of a non-empty list -/

/-- C1, as stated, fails: for the list holding only a post created on
1969-12-31 (before the epoch the accumulator starts at), the feed's `updated` is
the formatted epoch, not the formatted creation time, which is the maximum of
the list's timestamps. -/
theorem feed_updated_not_max_before_epoch :
    [oldPost] ≠ []
      ∧ (buildFeed (sampleContext UTC [oldPost]) [oldPost]).Updated = "1970-01-01T00:00:00+00:00"
      ∧ ∀ t ∈ allTimes [oldPost],
          formatTime t = "1969-12-31T00:00:00+00:00"
            ∧ (buildFeed (sampleContext UTC [oldPost]) [oldPost]).Updated ≠ formatTime t := by
  refine ⟨by simp, by decide, ?_⟩
  intro t ht
  simp only [allTimes, List.flatMap_cons, List.flatMap_nil, postTimes, oldPost, List.append_nil,
    List.mem_singleton] at ht
  subst ht
  exact ⟨by decide, by decide⟩

/-- C1 (amended): for posts whose timestamps are values of type `time.Time`
(seconds since year 1 in the `int64` range), when some creation or response
timestamp of the list is strictly after the Unix epoch, the feed's `updated` is
`formatTime` of a maximum of the creation and response timestamps: of a
timestamp of the list than which none of them is a later instant. -/
theorem feed_updated_is_max (c : Context) (posts : List Post)
    (hv : ∀ t ∈ allTimes posts, t.representable = true)
    (h : ∃ t ∈ allTimes posts, t.laterThan (UnixMilli c.Local 0) = true) :
    ∃ t ∈ allTimes posts,
      (∀ u ∈ allTimes posts, u.laterThan t = false)
        ∧ (buildFeed c posts).Updated = formatTime t := by
  obtain ⟨h1, h2, h3⟩ := foldl_loopBody_fst c.BaseURL posts (UnixMilli c.Local 0, [])
  obtain ⟨t0, ht0, hafter⟩ := h
  rw [← After_eq_laterThan (hv t0 ht0) (UnixMilli_zero_representable c.Local)] at hafter
  rcases h1 with h1 | h1
  · have := h3 t0 ht0
    rw [h1] at this
    simp only at this
    rw [this] at hafter
    exact absurd hafter (by simp)
  · refine ⟨_, h1, ?_, buildFeed_Updated c posts⟩
    intro u hu
    rw [← After_eq_laterThan (hv u hu) (hv _ h1)]
    exact h3 u hu

/-- Witness of `feed_updated_is_max`: a post created in 2023 and answered a day
later. -/
theorem feed_updated_is_max_witness :
    (∀ t ∈ allTimes [ideaA, ideaB], t.representable = true)
      ∧ (∃ t ∈ allTimes [ideaA, ideaB], t.laterThan (UnixMilli UTC 0) = true)
      ∧ ∃ t ∈ allTimes [ideaA, ideaB],
          (∀ u ∈ allTimes [ideaA, ideaB], u.laterThan t = false)
            ∧ (buildFeed (sampleContext UTC [ideaA, ideaB]) [ideaA, ideaB]).Updated
                = formatTime t :=
  have hv : ∀ t ∈ allTimes [ideaA, ideaB], t.representable = true := by decide
  have h : ∃ t ∈ allTimes [ideaA, ideaB],
      t.laterThan (UnixMilli (sampleContext UTC [ideaA, ideaB]).Local 0) = true :=
    ⟨ideaA.CreatedAt, by simp [allTimes, postTimes], by decide⟩
  ⟨hv, h, feed_updated_is_max (sampleContext UTC [ideaA, ideaB]) [ideaA, ideaB] hv h⟩

/-! ## C2: the empty list -/

theorem formatTime_congr {t u : Time} (h : t.civil = u.civil) : formatTime t = formatTime u := by
  simp [formatTime, Time.Format, h]

/-- C2, as stated, fails: in a process whose local zone is one hour east of UTC
the empty feed's `updated` is `1970-01-01T01:00:00+01:00`. -/
theorem empty_feed_updated_local_zone :
    (buildFeed (sampleContext (FixedZone 3600) []) []).Updated = "1970-01-01T01:00:00+01:00"
      ∧ (buildFeed (sampleContext (FixedZone 3600) []) []).Updated
          ≠ "1970-01-01T00:00:00+00:00" := by
  constructor <;> decide

/-- C2 (amended): for an empty post list the feed's `updated` is the Unix epoch
formatted in the local zone of the process, which is the string
`1970-01-01T00:00:00+00:00` when that zone is at offset zero at the epoch; the
entries are empty and the two feed-level links are there. -/
theorem empty_feed (c : Context) :
    (buildFeed c []).Updated = formatTime (UnixMilli c.Local 0)
      ∧ (UnixMilli c.Local 0).sec = 0 ∧ (UnixMilli c.Local 0).nsec = 0
      ∧ (c.Local.lookup 0 = 0 → (buildFeed c []).Updated = "1970-01-01T00:00:00+00:00")
      ∧ (buildFeed c []).Entries = []
      ∧ (buildFeed c []).Link.length = 2 := by
  refine ⟨rfl, by rw [UnixMilli_zero], by rw [UnixMilli_zero], ?_, rfl, rfl⟩
  intro h
  have hc : (UnixMilli c.Local 0).civil = (Time.mk 0 0 UTC).civil := by
    rw [UnixMilli_zero]
    simp [Time.civil, Time.zoneOffset, UTC, h]
  show formatTime (UnixMilli c.Local 0) = _
  rw [formatTime_congr hc]
  decide

/-- Witness of `empty_feed`: a process running in UTC. -/
theorem empty_feed_witness :
    UTC.lookup 0 = 0
      ∧ (buildFeed (sampleContext UTC []) []).Updated = "1970-01-01T00:00:00+00:00"
      ∧ (buildFeed (sampleContext UTC []) []).Entries = []
      ∧ (buildFeed (sampleContext UTC []) []).Link.length = 2 :=
  ⟨rfl, (empty_feed (sampleContext UTC [])).2.2.2.1 rfl,
    (empty_feed (sampleContext UTC [])).2.2.2.2.1, (empty_feed (sampleContext UTC [])).2.2.2.2.2⟩

/-! ## C3: the `updated` element of an entry -/

/-- The formatted time is never the empty string. -/
theorem formatTime_ne_empty (t : Time) : formatTime t ≠ "" := by
  intro h
  have := congrArg String.length h
  simp [formatTime, Time.Format, String.length] at this

/-- The tokens of an entry built by the handler: the `updated` element is there
exactly for a post with a response. -/
theorem marshalEntry_newEntry (b : String) (post : Post) :
    marshalEntry (newEntry b post) =
      [.StartElement ⟨"", "entry"⟩ [],
        .StartElement ⟨"", "title"⟩ [], .CharData post.Title, .EndElement ⟨"", "title"⟩,
        .StartElement ⟨"", "id"⟩ [], .CharData (b ++ "/posts/" ++ fmtInt post.ID),
        .EndElement ⟨"", "id"⟩,
        .StartElement ⟨"", "published"⟩ [], .CharData (formatTime post.CreatedAt),
        .EndElement ⟨"", "published"⟩]
      ++ (match post.Response with
          | none => []
          | some r =>
            [.StartElement ⟨"", "updated"⟩ [], .CharData (formatTime r.RespondedAt),
              .EndElement ⟨"", "updated"⟩])
      ++ [.StartElement ⟨"", "link"⟩
            [⟨"rel", "self"⟩, ⟨"href", b ++ "/feed/posts/" ++ fmtInt post.ID ++ ".atom"⟩,
              ⟨"type", "application/atom+xml"⟩],
          .EndElement ⟨"", "link"⟩,
          .StartElement ⟨"", "link"⟩
            [⟨"rel", "alternate"⟩, ⟨"href", b ++ "/posts/" ++ fmtInt post.ID⟩,
              ⟨"type", "text/html"⟩],
          .EndElement ⟨"", "link"⟩,
          .StartElement ⟨"", "author"⟩ [],
          .StartElement ⟨"", "name"⟩ [], .CharData post.User.Name, .EndElement ⟨"", "name"⟩,
          .InnerXML "",
          .EndElement ⟨"", "author"⟩,
          .StartElement ⟨"", "summary"⟩ [⟨"type", "html"⟩], .CharData post.Description,
          .EndElement ⟨"", "summary"⟩,
          .EndElement ⟨"", "entry"⟩] := by
  cases hr : post.Response with
  | none =>
    simp [marshalEntry, newEntry, entryUpdated, hr, marshalString, marshalLink, linkAttrs,
      marshalAuthor, marshalContentPtr, marshalContent]
  | some r =>
    have hne : formatTime r.RespondedAt ≠ "" := formatTime_ne_empty _
    simp [marshalEntry, newEntry, entryUpdated, hr, marshalString, marshalLink, linkAttrs,
      marshalAuthor, marshalContentPtr, marshalContent, hne]

/-- C3: the entry built from a post is serialised with an `updated` element if
and only if the post has a response. With a response the field is the formatted
response time, which is not empty, and the element is written once, with that
text; without a response the field is empty and no `updated` start tag is
written at all. -/
theorem entry_updated_iff_response (b : String) (post : Post) :
    (countStart "updated" (marshalEntry (newEntry b post)) = 1 ↔ post.Response.isSome = true)
      ∧ (∀ r, post.Response = some r →
          (newEntry b post).Updated = formatTime r.RespondedAt
            ∧ (newEntry b post).Updated ≠ ""
            ∧ [Token.StartElement ⟨"", "updated"⟩ [], .CharData (formatTime r.RespondedAt),
                .EndElement ⟨"", "updated"⟩] <:+: marshalEntry (newEntry b post))
      ∧ (post.Response = none →
          (newEntry b post).Updated = ""
            ∧ countStart "updated" (marshalEntry (newEntry b post)) = 0
            ∧ ∀ a, Token.StartElement ⟨"", "updated"⟩ a ∉ marshalEntry (newEntry b post)) := by
  rw [marshalEntry_newEntry]
  cases hr : post.Response with
  | none =>
    refine ⟨by simp [countStart], by simp, fun _ => ⟨by simp [newEntry, entryUpdated, hr], ?_, ?_⟩⟩
    · simp [countStart]
    · intro a; simp
  | some r =>
    refine ⟨by simp [countStart], ?_, by simp⟩
    intro r2 h2
    cases h2
    refine ⟨by simp [newEntry, entryUpdated, hr], ?_, ?_⟩
    · simp only [newEntry, entryUpdated, hr]
      exact formatTime_ne_empty _
    · exact ⟨_, _, rfl⟩

/-- Witness of `entry_updated_iff_response`: a post with a response, and a post
without one. -/
theorem entry_updated_iff_response_witness :
    (ideaB.Response = some ⟨⟨1672631200, 0, UTC⟩⟩
        ∧ (newEntry "https://acme.example" ideaB).Updated = "2023-01-02T03:46:40+00:00")
      ∧ (ideaA.Response = none
        ∧ countStart "updated" (marshalEntry (newEntry "https://acme.example" ideaA)) = 0) :=
  ⟨⟨rfl, by
      rw [((entry_updated_iff_response "https://acme.example" ideaB).2.1 _ rfl).1]
      decide⟩,
    ⟨rfl, ((entry_updated_iff_response "https://acme.example" ideaA).2.2 rfl).2.1⟩⟩

/-! ## C4: one entry per post, in order -/

/-- C4: the entries of the feed are the entries built from the posts, in the
order of the posts: same length, and the i-th entry is the one built from the
i-th post. -/
theorem entries_in_post_order (c : Context) (posts : List Post) :
    (buildFeed c posts).Entries.length = posts.length
      ∧ (∀ i : Nat, (buildFeed c posts).Entries[i]? = (posts[i]?).map (newEntry c.BaseURL))
      ∧ (buildFeed c posts).Entries = posts.map (newEntry c.BaseURL) := by
  rw [buildFeed_Entries]
  refine ⟨by simp, ?_, rfl⟩
  intro i
  simp

/-! ## C5: the fields of an entry -/

/-- C5: the entry at the position of a post carries the post's title,
description and author name unchanged, the identifier and link targets made from
the base URL and the post id, and the formatted creation time. -/
theorem entry_fields (c : Context) (posts : List Post) (i : Nat) (post : Post)
    (h : posts[i]? = some post) :
    ∃ e, (buildFeed c posts).Entries[i]? = some e
      ∧ e.Title = post.Title
      ∧ e.Id = c.BaseURL ++ "/posts/" ++ fmtInt post.ID
      ∧ e.Published = formatTime post.CreatedAt
      ∧ e.Author = some { Name := post.User.Name, Uri := "", Email := "", InnerXML := "" }
      ∧ e.Summary = some { Typ := "html", Body := post.Description }
      ∧ e.Link = [
          { Rel := "self", Href := c.BaseURL ++ "/feed/posts/" ++ fmtInt post.ID ++ ".atom",
            Typ := "application/atom+xml", HrefLang := "", Title := "", Length := 0 },
          { Rel := "alternate", Href := c.BaseURL ++ "/posts/" ++ fmtInt post.ID,
            Typ := "text/html", HrefLang := "", Title := "", Length := 0 }] := by
  refine ⟨newEntry c.BaseURL post, ?_, rfl, rfl, rfl, rfl, rfl, rfl⟩
  rw [buildFeed_Entries]
  simp [h]

/-- Witness of `entry_fields`: tenant base URL `https://acme.example` and post id 1
give the entry id `https://acme.example/posts/1`. -/
theorem entry_fields_witness :
    ([ideaA] : List Post)[0]? = some ideaA
      ∧ ∃ e, (buildFeed (sampleContext UTC [ideaA]) [ideaA]).Entries[0]? = some e
          ∧ e.Title = "Idea A"
          ∧ e.Id = "https://acme.example/posts/1"
          ∧ e.Published = "2023-01-01T00:00:00+00:00" := by
  refine ⟨rfl, ?_⟩
  obtain ⟨e, he, h1, h2, h3, _⟩ := entry_fields (sampleContext UTC [ideaA]) [ideaA] 0 ideaA rfl
  refine ⟨e, he, h1, ?_, ?_⟩
  · rw [h2]; decide
  · rw [h3]; decide

/-! ## C6: the subtitle -/

/-- C6 (code bug): for the tenant of the sample context, whose welcome message is
`Welcome`, the subtitle of the feed has the welcome message as body, but its
`Type` is the empty string where the claim has `text`: the handler sets no
`Type` on the subtitle (it sets `html` on the summary of an entry), and the start
tag is written with `type=""`. -/
theorem subtitle_type_not_text :
    (buildFeed (sampleContext UTC []) []).Subtitle.Body = "Welcome"
      ∧ (buildFeed (sampleContext UTC []) []).Subtitle.Typ = ""
      ∧ (buildFeed (sampleContext UTC []) []).Subtitle.Typ ≠ "text"
      ∧ Token.StartElement ⟨"", "subtitle"⟩ [⟨"type", ""⟩]
          ∈ marshalFeed (buildFeed (sampleContext UTC []) []) := by
  refine ⟨rfl, rfl, by decide, ?_⟩
  simp [marshalFeed, marshalContent, buildFeed]

/-! ## C7: two links everywhere, one author per entry -/

/-- C7: the feed has exactly two links, `self` then `alternate`, whatever the
posts; every entry has exactly two links, `self` then `alternate`, and exactly
one author, and is serialised with two `link` elements and one `author` element. -/
theorem two_links_one_author (c : Context) (posts : List Post) :
    (buildFeed c posts).Link.map Link.Rel = ["self", "alternate"]
      ∧ ∀ e ∈ (buildFeed c posts).Entries,
          e.Link.map Link.Rel = ["self", "alternate"]
            ∧ (∃ a, e.Author = some a)
            ∧ countStart "link" (marshalEntry e) = 2
            ∧ countStart "author" (marshalEntry e) = 1 := by
  refine ⟨rfl, ?_⟩
  intro e he
  rw [buildFeed_Entries, List.mem_map] at he
  obtain ⟨post, -, rfl⟩ := he
  refine ⟨rfl, ⟨_, rfl⟩, ?_, ?_⟩
  · rw [marshalEntry_newEntry]
    cases post.Response <;> simp [countStart]
  · rw [marshalEntry_newEntry]
    cases post.Response <;> simp [countStart]

/-! ## C8: the shape of a formatted time -/

theorem digitChar_isDigit (d : Nat) : (digitChar d).isDigit = true := by
  unfold digitChar
  have h := Nat.mod_lt d (by decide : 10 > 0)
  generalize d % 10 = k at h
  interval_cases k <;> decide

theorem natDigitsAux_isDigit (fuel n : Nat) (acc : List Char)
    (h : ∀ c ∈ acc, c.isDigit = true) : ∀ c ∈ natDigitsAux fuel n acc, c.isDigit = true := by
  induction fuel generalizing n acc with
  | zero => simpa [natDigitsAux] using h
  | succ f ih =>
    unfold natDigitsAux
    split
    · intro c hc
      rcases List.mem_cons.mp hc with hc | hc
      · rw [hc]; exact digitChar_isDigit n
      · exact h c hc
    · apply ih
      intro c hc
      rcases List.mem_cons.mp hc with hc | hc
      · rw [hc]; exact digitChar_isDigit n
      · exact h c hc

theorem natDigits_isDigit (n : Nat) : ∀ c ∈ natDigits n, c.isDigit = true :=
  natDigitsAux_isDigit _ _ _ (by simp)

theorem natDigitsAux_length_le (fuel n k : Nat) (acc : List Char) (hk : 1 ≤ k) (hn : n < 10 ^ k) :
    (natDigitsAux fuel n acc).length ≤ k + acc.length := by
  induction fuel generalizing n k acc with
  | zero => simp [natDigitsAux]
  | succ f ih =>
    unfold natDigitsAux
    split
    · simp; omega
    · rename_i h10
      obtain ⟨j, rfl⟩ : ∃ j, k = j + 1 := ⟨k - 1, by omega⟩
      have hj : 1 ≤ j := by
        rcases Nat.eq_zero_or_pos j with h0 | h0
        · subst h0; simp at hn; omega
        · exact h0
      have hdiv : n / 10 < 10 ^ j := by
        rw [Nat.div_lt_iff_lt_mul (by decide)]
        rw [pow_succ] at hn
        exact hn
      have := ih (n / 10) j (digitChar n :: acc) hj hdiv
      simp at this
      omega

theorem natDigits_length_le (n k : Nat) (hk : 1 ≤ k) (hn : n < 10 ^ k) :
    (natDigits n).length ≤ k := by
  simpa using natDigitsAux_length_le (n + 1) n k [] hk hn


theorem absYearDay_yday (d : Int) : 0 ≤ (absYearDay d).2 ∧ (absYearDay d).2 ≤ 365 := by
  simp only [absYearDay, daysPer400Years, daysPer100Years, daysPer4Years]
  omega

theorem daysBefore_of_div (day : Int) (h0 : 0 ≤ day) (h1 : day ≤ 365) :
    daysBefore (day / 31) ≤ day ∧ day < daysBefore (day / 31 + 1) + 31
      ∧ daysBefore (day / 31 + 1) ≤ daysBefore (day / 31) + 31 := by
  have hm : 0 ≤ day / 31 ∧ day / 31 ≤ 11 := by omega
  obtain ⟨m, hm'⟩ : ∃ m, day / 31 = m := ⟨_, rfl⟩
  rw [hm'] at hm ⊢
  obtain ⟨hm0, hm1⟩ := hm
  interval_cases m <;> simp [daysBefore] <;> omega

theorem monthDay_bounds (y d : Int) (h0 : 0 ≤ d) (h1 : d ≤ 365) :
    1 ≤ (monthDay y d).1 ∧ (monthDay y d).1 ≤ 13 ∧ 1 ≤ (monthDay y d).2 ∧ (monthDay y d).2 ≤ 31 := by
  unfold monthDay
  split
  · simp
  · generalize hday : (if (isLeap y && decide (d > 31 + 29 - 1)) = true then d - 1 else d) = day
    have hd : 0 ≤ day ∧ day ≤ 365 := by
      rw [← hday]
      split
      · rename_i h
        simp at h
        omega
      · omega
    obtain ⟨b1, b2, b3⟩ := daysBefore_of_div day hd.1 hd.2
    simp only []
    split <;> simp only [] <;> omega

theorem appendInt_isDigits (x : Int) (w : Nat) (h0 : 0 ≤ x) (hw : 1 ≤ w) (hx : x < 10 ^ w) :
    isDigits w (appendInt x w) = true := by
  obtain ⟨n, rfl⟩ := Int.eq_ofNat_of_zero_le h0
  have hn : n < 10 ^ w := by exact_mod_cast hx
  have hlen := natDigits_length_le n w hw hn
  have hdig := natDigits_isDigit n
  have hneg : ¬ ((n : Int) < 0) := by omega
  simp only [isDigits, appendInt, hneg, if_false, Int.natAbs_ofNat, List.nil_append,
    Bool.and_eq_true, decide_eq_true_eq, List.length_append, List.length_replicate,
    List.all_append, List.all_eq_true]
  refine ⟨by omega, ?_, hdig⟩
  intro c hc
  rw [List.eq_of_mem_replicate hc]
  decide

theorem appendInt_chars (x : Int) (w : Nat) :
    ∀ c ∈ appendInt x w, c.isDigit = true ∨ c = '-' := by
  intro c hc
  simp only [appendInt, List.mem_append] at hc
  rcases hc with (hc | hc) | hc
  · split at hc
    · right; simpa using hc
    · simp at hc
  · left; rw [List.eq_of_mem_replicate hc]; decide
  · left; exact natDigits_isDigit _ c hc

theorem appendZone_chars (o : Int) :
    ∀ c ∈ appendZone o, c.isDigit = true ∨ c = '-' ∨ c = '+' ∨ c = ':' := by
  intro c hc
  simp only [appendZone, List.mem_append, List.mem_singleton] at hc
  rcases hc with ((hc | hc) | hc) | hc
  · split at hc <;> simp at hc <;> simp [hc]
  · rcases appendInt_chars _ _ c hc with h | h <;> simp [h]
  · simp [hc]
  · rcases appendInt_chars _ _ c hc with h | h <;> simp [h]

theorem civil_bounds (t : Time) :
    1 ≤ t.civil.month ∧ t.civil.month ≤ 13 ∧ 1 ≤ t.civil.day ∧ t.civil.day ≤ 31
      ∧ 0 ≤ t.civil.hour ∧ t.civil.hour ≤ 23 ∧ 0 ≤ t.civil.min ∧ t.civil.min ≤ 59
      ∧ 0 ≤ t.civil.sec ∧ t.civil.sec ≤ 59 := by
  have hy := absYearDay_yday ((t.sec + t.zoneOffset) / secondsPerDay + unixToAbsoluteDays)
  have hm := monthDay_bounds
    (absYearDay ((t.sec + t.zoneOffset) / secondsPerDay + unixToAbsoluteDays)).1 _ hy.1 hy.2
  simp only [Time.civil, secondsPerDay] at *
  refine ⟨hm.1, hm.2.1, hm.2.2.1, hm.2.2.2, ?_, ?_, ?_, ?_, ?_, ?_⟩ <;> omega

theorem appendZone_shape (o : Int) (h1 : -360000 < o) (h2 : o < 360000) :
    ∃ sg : Char, ∃ zh zm : List Char, (sg = '+' ∨ sg = '-') ∧ isDigits 2 zh = true
      ∧ isDigits 2 zm = true ∧ appendZone o = [sg] ++ zh ++ [':'] ++ zm := by
  have hz : (Int.tdiv o 60).natAbs < 6000 := by
    rw [Int.natAbs_tdiv]
    show o.natAbs / 60 < 6000
    omega
  refine ⟨if Int.tdiv o 60 < 0 then '-' else '+',
    appendInt (Int.tdiv ((Int.tdiv o 60).natAbs : Int) 60) 2,
    appendInt (Int.tmod ((Int.tdiv o 60).natAbs : Int) 60) 2, ?_, ?_, ?_, ?_⟩
  · split <;> simp
  · generalize (Int.tdiv o 60).natAbs = z at hz
    have e : Int.tdiv (z : Int) 60 = ((z / 60 : Nat) : Int) := (Int.ofNat_tdiv z 60).symm
    rw [e]
    refine appendInt_isDigits _ 2 (by omega) (by decide) ?_
    have : z / 60 < 100 := by omega
    exact_mod_cast this
  · generalize (Int.tdiv o 60).natAbs = z at hz
    have e : Int.tmod (z : Int) 60 = ((z % 60 : Nat) : Int) := (Int.ofNat_tmod z 60).symm
    rw [e]
    refine appendInt_isDigits _ 2 (by omega) (by decide) ?_
    have : z % 60 < 100 := by omega
    exact_mod_cast this
  · simp only [appendZone]
    split <;> rfl

theorem isDigits_length {k : Nat} {l : List Char} (h : isDigits k l = true) : l.length = k := by
  simp only [isDigits, Bool.and_eq_true, decide_eq_true_eq] at h
  exact h.1

/-- C8 (amended): `formatTime` is total and writes only digits and the
characters `-`, `+`, `:` and `T` (so never a `Z`, never a fraction of a second).
For a time whose year, in its own zone, is in 0..9999 and whose zone offset is
less than 100 hours either way, the result has the 25 characters
`YYYY-MM-DDTHH:MM:SS±HH:MM`: four digits, two, two, `T`, two, two, two, a sign,
two digits, a colon, two digits. -/
theorem formatTime_shape (t : Time) :
    (∀ ch ∈ (formatTime t).data,
        ch.isDigit = true ∨ ch = '-' ∨ ch = '+' ∨ ch = ':' ∨ ch = 'T')
      ∧ (0 ≤ t.civil.year → t.civil.year ≤ 9999
          → -360000 < t.zoneOffset → t.zoneOffset < 360000 →
          (formatTime t).length = 25
            ∧ ∃ Y M D h m s zh zm : List Char, ∃ sg : Char,
                isDigits 4 Y = true ∧ isDigits 2 M = true ∧ isDigits 2 D = true
                  ∧ isDigits 2 h = true ∧ isDigits 2 m = true ∧ isDigits 2 s = true
                  ∧ (sg = '+' ∨ sg = '-')
                  ∧ isDigits 2 zh = true ∧ isDigits 2 zm = true
                  ∧ formatTime t = String.mk (Y ++ ['-'] ++ M ++ ['-'] ++ D ++ ['T'] ++ h
                      ++ [':'] ++ m ++ [':'] ++ s ++ [sg] ++ zh ++ [':'] ++ zm)) := by
  constructor
  · intro ch hch
    dsimp only [formatTime, Time.Format] at hch
    simp only [List.mem_append, List.mem_singleton, or_assoc] at hch
    rcases hch with hc | hc | hc | hc | hc | hc | hc | hc | hc | hc | hc | hc
    · rcases appendInt_chars _ _ ch hc with h | h <;> simp [h]
    · simp [hc]
    · rcases appendInt_chars _ _ ch hc with h | h <;> simp [h]
    · simp [hc]
    · rcases appendInt_chars _ _ ch hc with h | h <;> simp [h]
    · simp [hc]
    · rcases appendInt_chars _ _ ch hc with h | h <;> simp [h]
    · simp [hc]
    · rcases appendInt_chars _ _ ch hc with h | h <;> simp [h]
    · simp [hc]
    · rcases appendInt_chars _ _ ch hc with h | h <;> simp [h]
    · rcases appendZone_chars _ ch hc with h | h | h | h <;> simp [h]
  · intro hy0 hy1 ho0 ho1
    obtain ⟨b1, b2, b3, b4, b5, b6, b7, b8, b9, b10⟩ := civil_bounds t
    have hoff : t.civil.offset = t.zoneOffset := rfl
    obtain ⟨sg, zh, zm, hsg, hzh, hzm, hz⟩ := appendZone_shape t.civil.offset
      (by rw [hoff]; exact ho0) (by rw [hoff]; exact ho1)
    have hY := appendInt_isDigits t.civil.year 4 hy0 (by decide) (by norm_num; omega)
    have hM := appendInt_isDigits t.civil.month 2 (by omega) (by decide) (by norm_num; omega)
    have hD := appendInt_isDigits t.civil.day 2 (by omega) (by decide) (by norm_num; omega)
    have hh := appendInt_isDigits t.civil.hour 2 (by omega) (by decide) (by norm_num; omega)
    have hm := appendInt_isDigits t.civil.min 2 (by omega) (by decide) (by norm_num; omega)
    have hs := appendInt_isDigits t.civil.sec 2 (by omega) (by decide) (by norm_num; omega)
    have heq : formatTime t = String.mk (appendInt t.civil.year 4 ++ ['-']
        ++ appendInt t.civil.month 2 ++ ['-'] ++ appendInt t.civil.day 2 ++ ['T']
        ++ appendInt t.civil.hour 2 ++ [':'] ++ appendInt t.civil.min 2 ++ [':']
        ++ appendInt t.civil.sec 2 ++ [sg] ++ zh ++ [':'] ++ zm) := by
      simp only [formatTime, Time.Format, hz, List.append_assoc]
    refine ⟨?_, _, _, _, _, _, _, zh, zm, sg, hY, hM, hD, hh, hm, hs, hsg, hzh, hzm, heq⟩
    rw [heq]
    simp only [String.length, List.length_append, List.length_singleton, isDigits_length hY,
      isDigits_length hM, isDigits_length hD, isDigits_length hh, isDigits_length hm,
      isDigits_length hs, isDigits_length hzh, isDigits_length hzm]


/-- Witness of `formatTime_shape`: 2023-01-01T00:00:00Z. -/
theorem formatTime_shape_witness :
    (0 ≤ (Time.mk 1672531200 0 UTC).civil.year ∧ (Time.mk 1672531200 0 UTC).civil.year ≤ 9999
        ∧ -360000 < (Time.mk 1672531200 0 UTC).zoneOffset
        ∧ (Time.mk 1672531200 0 UTC).zoneOffset < 360000)
      ∧ (formatTime (Time.mk 1672531200 0 UTC)).length = 25 :=
  ⟨⟨by decide, by decide, by decide, by decide⟩,
    ((formatTime_shape (Time.mk 1672531200 0 UTC)).2
      (by decide) (by decide) (by decide) (by decide)).1⟩

/-- C8, as stated, fails: a time in the year 10000 is formatted with a five-digit
year, 26 characters in all. -/
theorem formatTime_year_10000 :
    formatTime (Time.mk 253402300800 0 UTC) = "10000-01-01T00:00:00+00:00"
      ∧ (formatTime (Time.mk 253402300800 0 UTC)).length = 26
      ∧ (formatTime (Time.mk 253402300800 0 UTC)).length ≠ 25 := by
  refine ⟨by decide, by decide, by decide⟩

/-! ## The printer: no failure, no second declaration -/

theorem noPI_append {a b : List Char} (ha : noPI a = true) (hb : noPI b = true) :
    noPI (a ++ b) = true := by
  induction a with
  | nil => simpa using hb
  | cons c rest ih =>
    simp only [noPI, Bool.and_eq_true, Bool.or_eq_true] at ha
    simp only [List.cons_append, noPI, Bool.and_eq_true, Bool.or_eq_true]
    refine ⟨?_, ih ha.2⟩
    rcases ha.1 with h | h
    · left; exact h
    · right
      cases rest with
      | nil => simp at h
      | cons d r => simpa using h

theorem noPI_of_noLt {l : List Char} (h : ∀ c ∈ l, c ≠ '<') : noPI l = true := by
  induction l with
  | nil => rfl
  | cons c rest ih =>
    simp only [noPI, Bool.and_eq_true, Bool.or_eq_true]
    refine ⟨Or.inl ?_, ih (fun x hx => h x (List.mem_cons_of_mem _ hx))⟩
    simpa using h c (List.mem_cons_self _ _)

theorem noPI_lt_cons {d : Char} {r : List Char} (hd : d ≠ '?') (h : ∀ c ∈ d :: r, c ≠ '<') :
    noPI ('<' :: d :: r) = true := by
  simp only [noPI, Bool.and_eq_true, Bool.or_eq_true]
  have := noPI_of_noLt h
  simp only [noPI, Bool.and_eq_true, Bool.or_eq_true] at this
  exact ⟨Or.inr (by simpa using hd), this⟩

theorem noPI_not_infix {l : List Char} (h : noPI l = true) (pre suf : List Char) :
    l ≠ pre ++ '<' :: '?' :: suf := by
  induction pre generalizing l with
  | nil =>
    intro e
    subst e
    simp [noPI] at h
  | cons c pre ih =>
    intro e
    subst e
    simp only [List.cons_append, noPI, Bool.and_eq_true] at h
    exact ih h.2 rfl

theorem escapeRune_noLt (c : Char) : ∀ x ∈ (escapeRune c).data, x ≠ '<' := by
  unfold escapeRune
  split_ifs <;> simp_all

theorem EscapeString_noLt (s : String) : ∀ x ∈ (EscapeString s).data, x ≠ '<' := by
  intro x hx
  simp only [EscapeString, List.mem_flatMap] at hx
  obtain ⟨c, -, hc⟩ := hx
  exact escapeRune_noLt c x hc

theorem indentText_noLt (depth : Int) : ∀ x ∈ (indentText "" "\t" depth).data, x ≠ '<' := by
  intro x hx
  simp only [indentText, String.data_append, String.data_join, List.mem_append,
    List.mem_flatten, List.mem_map, List.mem_replicate] at hx
  rcases hx with hx | ⟨l, ⟨s, ⟨-, rfl⟩, rfl⟩, hx⟩
  · simp at hx
  · have : x = '\t' := by simpa using hx
    rw [this]; decide

theorem writeIndent_spec (p : printer) (hp : p.tabbed) (d : Int) :
    ∃ w : String, (p.writeIndent d).wrote p w ∧ ∀ x ∈ w.data, x ≠ '<' := by
  obtain ⟨h1, h2⟩ := hp
  have hne : ¬ (p.pfx.length = 0 ∧ p.indent.length = 0) := by
    intro h
    rw [h2] at h
    exact absurd h.2 (by decide)
  unfold printer.writeIndent
  rw [if_neg hne]
  by_cases hd : d < 0
  · by_cases hi : p.indentedIn = true
    · refine ⟨"", ?_, by simp⟩
      simp [hd, hi, printer.wrote]
    · by_cases hn : p.putNewline = true
      · have hd2 : ¬ (d > 0) := by omega
        refine ⟨"\n" ++ indentText "" "\t" (p.depth - 1), ?_, ?_⟩
        · simp [hd, hi, hn, hd2, printer.wrote, h1, h2, String.append_assoc]
        · intro x hx
          simp only [String.data_append, List.mem_append] at hx
          rcases hx with hx | hx
          · have : x = '\n' := by simpa using hx
            rw [this]; decide
          · exact indentText_noLt _ x hx
      · have hd2 : ¬ (d > 0) := by omega
        refine ⟨indentText "" "\t" (p.depth - 1), ?_, indentText_noLt _⟩
        simp [hd, hi, hn, hd2, printer.wrote, h1, h2]
  · by_cases hn : p.putNewline = true
    · refine ⟨"\n" ++ indentText "" "\t" p.depth, ?_, ?_⟩
      · by_cases hd2 : d > 0 <;>
          simp [hd, hn, hd2, printer.wrote, h1, h2, String.append_assoc]
      · intro x hx
        simp only [String.data_append, List.mem_append] at hx
        rcases hx with hx | hx
        · have : x = '\n' := by simpa using hx
          rw [this]; decide
        · exact indentText_noLt _ x hx
    · refine ⟨indentText "" "\t" p.depth, ?_, indentText_noLt _⟩
      by_cases hd2 : d > 0 <;> simp [hd, hn, hd2, printer.wrote, h1, h2]

theorem goodName_spec {s : String} (h : goodName s = true) :
    s ≠ "" ∧ ∃ d r, s.data = d :: r ∧ d ≠ '?' ∧ ∀ c ∈ d :: r, c ≠ '<' := by
  unfold goodName at h
  split at h
  · simp at h
  · rename_i d r hs
    simp only [Bool.and_eq_true, List.all_eq_true] at h
    refine ⟨?_, d, r, hs, by simpa using h.1, fun c hc => by simpa using h.2 c hc⟩
    intro e
    rw [e] at hs
    simp at hs

theorem attrText_noLt (a : Attr) (h : a.Name.data.all (· != '<') = true) :
    ∀ x ∈ (attrText a).data, x ≠ '<' := by
  intro x hx
  simp only [attrText, String.data_append, List.mem_append, String.data_singleton,
    List.mem_singleton] at hx
  simp only [List.all_eq_true] at h
  rcases hx with ((((hx | hx) | hx) | hx) | hx) | hx
  · have : x = ' ' := by simpa using hx
    rw [this]; decide
  · simpa using h x hx
  · have : x = '=' := by simpa using hx
    rw [this]; decide
  · rw [hx]; decide
  · exact EscapeString_noLt _ x hx
  · rw [hx]; decide

theorem startTagText_noPI (n : Name) (attr : List Attr) (hn : goodName n.Local = true)
    (ha : attr.all (fun a => a.Name.data.all (· != '<')) = true) :
    noPI (startTagText n attr).data = true := by
  obtain ⟨-, d, r, hs, hd, hr⟩ := goodName_spec hn
  have hrest : ∀ x ∈ ((if n.Space ≠ "" then
            " xmlns=" ++ String.singleton quot ++ EscapeString n.Space ++ String.singleton quot
          else "")
      ++ String.join ((attr.filter fun a => a.Name ≠ "").map attrText) ++ ">").data, x ≠ '<' := by
    intro x hx
    simp only [String.data_append, List.mem_append, String.data_join, List.mem_flatten,
      List.mem_map, List.mem_filter] at hx
    rcases hx with (hx | ⟨l, ⟨s, ⟨a, ⟨ha1, -⟩, rfl⟩, rfl⟩, hx⟩) | hx
    · split at hx
      · simp only [String.data_append, List.mem_append, String.data_singleton,
          List.mem_singleton] at hx
        rcases hx with ((hx | hx) | hx) | hx
        · have : x ∈ [' ', 'x', 'm', 'l', 'n', 's', '='] := hx
          intro e; rw [e] at this; revert this; decide
        · rw [hx]; decide
        · exact EscapeString_noLt _ x hx
        · rw [hx]; decide
      · simp at hx
    · exact attrText_noLt a (List.all_eq_true.mp ha a ha1) x hx
    · have : x = '>' := by simpa using hx
      rw [this]; decide
  have e : (startTagText n attr).data = '<' :: d :: (r ++ ((if n.Space ≠ "" then
            " xmlns=" ++ String.singleton quot ++ EscapeString n.Space ++ String.singleton quot
          else "")
      ++ String.join ((attr.filter fun a => a.Name ≠ "").map attrText) ++ ">").data) := by
    simp only [startTagText, String.data_append, hs, List.append_assoc]
    rfl
  rw [e]
  apply noPI_lt_cons hd
  intro c hc
  rcases List.mem_cons.mp hc with hc | hc
  · exact hr c (by rw [hc]; exact List.mem_cons_self _ _)
  · rcases List.mem_append.mp hc with hc | hc
    · exact hr c (List.mem_cons_of_mem _ hc)
    · exact hrest c hc

theorem endTagText_noPI (n : Name) (hn : goodName n.Local = true) :
    noPI ("</" ++ n.Local ++ ">").data = true := by
  obtain ⟨-, d, r, hs, hd, hr⟩ := goodName_spec hn
  have e : ("</" ++ n.Local ++ ">").data = '<' :: '/' :: (n.Local.data ++ ['>']) := rfl
  rw [e]
  apply noPI_lt_cons (by decide)
  intro c hc
  rcases List.mem_cons.mp hc with hc | hc
  · rw [hc]; decide
  · rcases List.mem_append.mp hc with hc | hc
    · rw [hs] at hc; exact hr c hc
    · have : c = '>' := by simpa using hc
      rw [this]; decide

theorem wrote_tabbed {p q : printer} {w : String} (h : q.wrote p w) (hp : p.tabbed) : q.tabbed :=
  ⟨h.2.1.trans hp.1, h.2.2.1.trans hp.2⟩

theorem wrote_trans {p q r : printer} {w v : String} (h1 : q.wrote p w) (h2 : r.wrote q v) :
    r.wrote p (w ++ v) :=
  ⟨by rw [h2.1, h1.1, String.append_assoc], h2.2.1.trans h1.2.1, h2.2.2.1.trans h1.2.2.1,
    h2.2.2.2.trans h1.2.2.2⟩

theorem emitAll_cons (p : printer) (t : Token) (ts : List Token) :
    p.emitAll (t :: ts) = match p.emit t with
      | .error err => .error err
      | .ok q => q.emitAll ts := rfl

theorem emitAll_append (p : printer) (a b : List Token) :
    p.emitAll (a ++ b) = match p.emitAll a with
      | .error err => .error err
      | .ok q => q.emitAll b := by
  induction a generalizing p with
  | nil => rfl
  | cons t ts ih =>
    simp only [List.cons_append, printer.emitAll]
    cases p.emit t with
    | error err => rfl
    | ok q => exact ih q

theorem Runs_nil : Runs [] := by
  intro p _
  exact ⟨p, "", rfl, ⟨by simp, rfl, rfl, rfl⟩, rfl⟩

theorem Runs_append {a b : List Token} (ha : Runs a) (hb : Runs b) : Runs (a ++ b) := by
  intro p hp
  obtain ⟨q, w, h1, h2, h3⟩ := ha p hp
  obtain ⟨r, v, g1, g2, g3⟩ := hb q (wrote_tabbed h2 hp)
  refine ⟨r, w ++ v, ?_, wrote_trans h2 g2, ?_⟩
  · rw [emitAll_append, h1]
    exact g1
  · rw [String.data_append]
    exact noPI_append h3 g3

theorem Runs_CharData (s : String) : Runs [.CharData s] := by
  intro p _
  exact ⟨_, EscapeString s, rfl, ⟨rfl, rfl, rfl, rfl⟩, noPI_of_noLt (EscapeString_noLt s)⟩

theorem Runs_InnerXML (s : String) (h : noPI s.data = true) : Runs [.InnerXML s] := by
  intro p _
  exact ⟨_, s, rfl, ⟨rfl, rfl, rfl, rfl⟩, h⟩

theorem Runs_element (n : Name) (attr : List Attr) (inner : List Token)
    (hn : goodName n.Local = true)
    (ha : attr.all (fun a => a.Name.data.all (· != '<')) = true) (hi : Runs inner) :
    Runs (.StartElement n attr :: (inner ++ [.EndElement n])) := by
  intro p hp
  have hne : n.Local ≠ "" := (goodName_spec hn).1
  -- the start tag
  have hp1 : printer.tabbed { p with tags := p.tags ++ [n] } := hp
  obtain ⟨w1, hw1, hw1c⟩ := writeIndent_spec { p with tags := p.tags ++ [n] } hp1 1
  have hs : p.emit (.StartElement n attr)
      = .ok { ({ p with tags := p.tags ++ [n] } : printer).writeIndent 1 with
          out := (({ p with tags := p.tags ++ [n] } : printer).writeIndent 1).out
            ++ startTagText n attr } := by
    simp [printer.emit, printer.writeStart, hne]
  obtain ⟨q1, hq1⟩ : ∃ q1 : printer, q1 = { ({ p with tags := p.tags ++ [n] } : printer).writeIndent 1 with
          out := (({ p with tags := p.tags ++ [n] } : printer).writeIndent 1).out
            ++ startTagText n attr } := ⟨_, rfl⟩
  rw [← hq1] at hs
  have hq1out : q1.out = p.out ++ (w1 ++ startTagText n attr) := by
    rw [hq1]; simp only []; rw [hw1.1, String.append_assoc]
  have hq1t : q1.tabbed := by
    rw [hq1]; exact ⟨hw1.2.1.trans hp.1, hw1.2.2.1.trans hp.2⟩
  have hq1tags : q1.tags = p.tags ++ [n] := by
    rw [hq1]; exact hw1.2.2.2
  have hq1pfx : q1.pfx = p.pfx ∧ q1.indent = p.indent := by
    rw [hq1]; exact ⟨hw1.2.1, hw1.2.2.1⟩
  -- the content
  obtain ⟨q2, w2, hr2, hw2, hw2c⟩ := hi q1 hq1t
  -- the end tag
  have hq2t : q2.tabbed := wrote_tabbed hw2 hq1t
  have hq2tags : q2.tags = p.tags ++ [n] := hw2.2.2.2.trans hq1tags
  have hp3 : printer.tabbed { q2 with tags := q2.tags.dropLast } := hq2t
  obtain ⟨w3, hw3, hw3c⟩ := writeIndent_spec { q2 with tags := q2.tags.dropLast } hp3 (-1)
  have he : q2.emit (.EndElement n)
      = .ok { ({ q2 with tags := q2.tags.dropLast } : printer).writeIndent (-1) with
          out := (({ q2 with tags := q2.tags.dropLast } : printer).writeIndent (-1)).out
            ++ "</" ++ n.Local ++ ">" } := by
    simp [printer.emit, printer.writeEnd, hne, hq2tags]
  obtain ⟨q3, hq3⟩ : ∃ q3 : printer,
      q3 = { ({ q2 with tags := q2.tags.dropLast } : printer).writeIndent (-1) with
          out := (({ q2 with tags := q2.tags.dropLast } : printer).writeIndent (-1)).out
            ++ "</" ++ n.Local ++ ">" } := ⟨_, rfl⟩
  rw [← hq3] at he
  refine ⟨q3, (w1 ++ startTagText n attr) ++ w2 ++ (w3 ++ ("</" ++ n.Local ++ ">")), ?_, ?_, ?_⟩
  · simp only [printer.emitAll, hs]
    rw [emitAll_append, hr2]
    simp only [printer.emitAll, he]
  · refine ⟨?_, ?_, ?_, ?_⟩
    · rw [hq3]
      simp only []
      rw [hw3.1]
      simp only []
      rw [hw2.1, hq1out]
      simp only [String.append_assoc]
    · rw [hq3]
      simp only []
      rw [hw3.2.1]
      exact hw2.2.1.trans hq1pfx.1
    · rw [hq3]
      simp only []
      rw [hw3.2.2.1]
      exact hw2.2.2.1.trans hq1pfx.2
    · rw [hq3]
      simp only []
      rw [hw3.2.2.2]
      simp only []
      rw [hq2tags]
      simp
  · simp only [String.data_append]
    refine noPI_append (noPI_append (noPI_append (noPI_of_noLt hw1c) ?_) hw2c)
      (noPI_append (noPI_of_noLt hw3c) ?_)
    · exact startTagText_noPI n attr hn ha
    · have := endTagText_noPI n hn
      simpa only [String.data_append, List.append_assoc] using this

theorem Runs_marshalString (name : String) (o : Bool) (v : String)
    (hn : goodName name = true) : Runs (marshalString name o v) := by
  unfold marshalString
  split
  · exact Runs_nil
  · exact Runs_element ⟨"", name⟩ [] [.CharData v] hn rfl (Runs_CharData v)

theorem linkAttrs_good (l : Link) :
    (linkAttrs l).all (fun a => a.Name.data.all (· != '<')) = true := by
  simp only [linkAttrs, List.all_append, Bool.and_eq_true]
  refine ⟨⟨⟨⟨⟨?_, ?_⟩, ?_⟩, ?_⟩, ?_⟩, ?_⟩ <;> first | rfl | (split <;> rfl)

theorem Runs_marshalLink (l : Link) : Runs (marshalLink l) :=
  Runs_element ⟨"", "link"⟩ (linkAttrs l) [] (by decide) (linkAttrs_good l) Runs_nil

theorem Runs_flatMap {α : Type} (f : α → List Token) (l : List α) (h : ∀ x ∈ l, Runs (f x)) :
    Runs (l.flatMap f) := by
  induction l with
  | nil => exact Runs_nil
  | cons x xs ih =>
    rw [List.flatMap_cons]
    exact Runs_append (h x (List.mem_cons_self _ _))
      (ih fun y hy => h y (List.mem_cons_of_mem _ hy))

theorem Runs_marshalAuthor (a : Option Author) (h : rawFree a) : Runs (marshalAuthor a) := by
  cases a with
  | none => exact Runs_nil
  | some x =>
    have e : marshalAuthor (some x) = .StartElement ⟨"", "author"⟩ [] ::
        ((marshalString "name" false x.Name ++ marshalString "uri" true x.Uri
          ++ marshalString "email" true x.Email ++ [.InnerXML x.InnerXML])
          ++ [.EndElement ⟨"", "author"⟩]) := by
      simp [marshalAuthor]
    rw [e]
    refine Runs_element _ _ _ (by decide) rfl ?_
    exact Runs_append (Runs_append (Runs_append (Runs_marshalString _ _ _ (by decide))
      (Runs_marshalString _ _ _ (by decide))) (Runs_marshalString _ _ _ (by decide)))
      (Runs_InnerXML _ (h x rfl))

theorem Runs_marshalContent (name : String) (c : Content) (hn : goodName name = true) :
    Runs (marshalContent name c) :=
  Runs_element ⟨"", name⟩ [⟨"type", c.Typ⟩] [.CharData c.Body] hn rfl (Runs_CharData _)

theorem Runs_marshalContentPtr (name : String) (c : Option Content) (hn : goodName name = true) :
    Runs (marshalContentPtr name c) := by
  cases c with
  | none => exact Runs_nil
  | some c => exact Runs_marshalContent name c hn

theorem Runs_marshalEntry (e : Entry) (h : rawFree e.Author) : Runs (marshalEntry e) := by
  have e1 : marshalEntry e = .StartElement ⟨"", "entry"⟩ [] ::
      ((marshalString "title" false e.Title ++ marshalString "id" false e.Id
        ++ marshalString "published" false e.Published
        ++ marshalString "updated" true e.Updated
        ++ e.Link.flatMap marshalLink
        ++ marshalAuthor e.Author
        ++ marshalContentPtr "summary" e.Summary
        ++ marshalContentPtr "content" e.Content)
        ++ [.EndElement ⟨"", "entry"⟩]) := by
    simp [marshalEntry]
  rw [e1]
  refine Runs_element _ _ _ (by decide) rfl ?_
  refine Runs_append (Runs_append (Runs_append (Runs_append (Runs_append (Runs_append
    (Runs_append ?_ ?_) ?_) ?_) ?_) ?_) ?_) ?_
  · exact Runs_marshalString _ _ _ (by decide)
  · exact Runs_marshalString _ _ _ (by decide)
  · exact Runs_marshalString _ _ _ (by decide)
  · exact Runs_marshalString _ _ _ (by decide)
  · exact Runs_flatMap _ _ fun l _ => Runs_marshalLink l
  · exact Runs_marshalAuthor _ h
  · exact Runs_marshalContentPtr _ _ (by decide)
  · exact Runs_marshalContentPtr _ _ (by decide)

theorem Runs_marshalFeed (f : AtomFeed) (h : rawFree f.Author)
    (he : ∀ e ∈ f.Entries, rawFree e.Author) : Runs (marshalFeed f) := by
  have e1 : marshalFeed f = .StartElement ⟨"http://www.w3.org/2005/Atom", "feed"⟩ [] ::
      ((marshalString "title" false f.Title ++ marshalContent "subtitle" f.Subtitle
        ++ marshalString "id" false f.Id
        ++ marshalString "updated" false f.Updated
        ++ f.Link.flatMap marshalLink
        ++ marshalAuthor f.Author
        ++ f.Entries.flatMap marshalEntry)
        ++ [.EndElement ⟨"http://www.w3.org/2005/Atom", "feed"⟩]) := by
    simp [marshalFeed]
  rw [e1]
  refine Runs_element _ _ _ (by decide) rfl ?_
  refine Runs_append (Runs_append (Runs_append (Runs_append (Runs_append (Runs_append
    ?_ ?_) ?_) ?_) ?_) ?_) ?_
  · exact Runs_marshalString _ _ _ (by decide)
  · exact Runs_marshalContent _ _ (by decide)
  · exact Runs_marshalString _ _ _ (by decide)
  · exact Runs_marshalString _ _ _ (by decide)
  · exact Runs_flatMap _ _ fun l _ => Runs_marshalLink l
  · exact Runs_marshalAuthor _ h
  · exact Runs_flatMap _ _ fun e hm => Runs_marshalEntry e (he e hm)

/-- Marshalling a feed without raw inner XML never fails, and the document has
no `<?`. -/
theorem MarshalIndent_ok (f : AtomFeed) (h : rawFree f.Author)
    (he : ∀ e ∈ f.Entries, rawFree e.Author) :
    ∃ xml : String, MarshalIndent f "" "\t" = .ok xml ∧ noPI xml.data = true := by
  obtain ⟨q, w, h1, h2, h3⟩ := Runs_marshalFeed f h he
    { out := "", pfx := "", indent := "\t", depth := 0, indentedIn := false,
      putNewline := false, tags := [] } ⟨rfl, rfl⟩
  refine ⟨q.out, ?_, ?_⟩
  · simp only [MarshalIndent, h1]
  · rw [h2.1]
    simpa using h3

theorem emit_out (p q : printer) (t : Token) (hp : p.tabbed) (h : p.emit t = .ok q) :
    ∃ w : String, q.out = p.out ++ w ∧ q.tabbed := by
  cases t with
  | StartElement n attr =>
    simp only [printer.emit, printer.writeStart] at h
    split at h
    · cases h
    · have hp1 : printer.tabbed { p with tags := p.tags ++ [n] } := hp
      obtain ⟨w1, hw1, -⟩ := writeIndent_spec { p with tags := p.tags ++ [n] } hp1 1
      cases h
      refine ⟨w1 ++ startTagText n attr, ?_, ?_⟩
      · simp only []
        rw [hw1.1, String.append_assoc]
      · exact ⟨hw1.2.1.trans hp.1, hw1.2.2.1.trans hp.2⟩
  | CharData s => cases h; exact ⟨_, rfl, hp⟩
  | InnerXML s => cases h; exact ⟨_, rfl, hp⟩
  | EndElement n =>
    simp only [printer.emit, printer.writeEnd] at h
    split at h
    · cases h
    · split at h
      · cases h
      · split at h
        · cases h
        · split at h
          · cases h
          · have hp1 : printer.tabbed { p with tags := p.tags.dropLast } := hp
            obtain ⟨w1, hw1, -⟩ := writeIndent_spec { p with tags := p.tags.dropLast } hp1 (-1)
            cases h
            refine ⟨w1 ++ ("</" ++ n.Local ++ ">"), ?_, ?_⟩
            · simp only []
              rw [hw1.1]
              simp only [String.append_assoc]
            · exact ⟨hw1.2.1.trans hp.1, hw1.2.2.1.trans hp.2⟩

theorem emitAll_out (p q : printer) (toks : List Token) (hp : p.tabbed)
    (h : p.emitAll toks = .ok q) : ∃ w : String, q.out = p.out ++ w := by
  induction toks generalizing p with
  | nil =>
    cases h
    exact ⟨"", by simp⟩
  | cons t ts ih =>
    simp only [printer.emitAll] at h
    cases ht : p.emit t with
    | error err => rw [ht] at h; cases h
    | ok q1 =>
      rw [ht] at h
      obtain ⟨w1, hw1, hq1⟩ := emit_out p q1 t hp ht
      obtain ⟨w2, hw2⟩ := ih q1 hq1 h
      exact ⟨w1 ++ w2, by rw [hw2, hw1, String.append_assoc]⟩

/-- A marshalled feed starts with the start tag of the `feed` element in the
Atom name space. -/
theorem MarshalIndent_starts (f : AtomFeed) (xml : String)
    (h : MarshalIndent f "" "\t" = .ok xml) :
    ∃ rest : String, xml = "<feed xmlns=\"http://www.w3.org/2005/Atom\">" ++ rest := by
  simp only [MarshalIndent] at h
  split at h
  · cases h
  · rename_i q hq
    cases h
    have e1 : marshalFeed f = .StartElement ⟨"http://www.w3.org/2005/Atom", "feed"⟩ [] ::
        (marshalString "title" false f.Title ++ marshalContent "subtitle" f.Subtitle
          ++ marshalString "id" false f.Id
          ++ marshalString "updated" false f.Updated
          ++ f.Link.flatMap marshalLink
          ++ marshalAuthor f.Author
          ++ f.Entries.flatMap marshalEntry
          ++ [.EndElement ⟨"http://www.w3.org/2005/Atom", "feed"⟩]) := by
      simp [marshalFeed]
    rw [e1] at hq
    have e2 : printer.emit
          { out := "", pfx := "", indent := "\t", depth := 0, indentedIn := false,
            putNewline := false, tags := [] }
          (.StartElement ⟨"http://www.w3.org/2005/Atom", "feed"⟩ [])
        = .ok
          { out := "<feed xmlns=\"http://www.w3.org/2005/Atom\">", pfx := "", indent := "\t",
            depth := 1, indentedIn := true, putNewline := true,
            tags := [⟨"http://www.w3.org/2005/Atom", "feed"⟩] } := by
      rfl
    rw [emitAll_cons, e2] at hq
    obtain ⟨w, hw⟩ := emitAll_out _ _ _ ⟨rfl, rfl⟩ hq
    exact ⟨w, hw⟩

theorem xmlHeader_eq : xmlHeader = "<?xml version=\"1.0\" encoding=\"utf-8\"?>\n" := by
  decide

/-- The XML declaration fits into the header followed by a text without `<?`
only at the very start. -/
theorem header_once (xml : String) (h : noPI xml.data = true) (pre suf : String)
    (e : xmlHeader ++ xml = pre ++ xmlHeader ++ suf) : pre = "" := by
  have hd : xmlHeader.data = '<' :: '?' :: xmlHeader.data.drop 2 := by decide
  have hnl : ∀ c ∈ '?' :: xmlHeader.data.drop 2, c ≠ '<' := by decide
  have e' := congrArg String.data e
  simp only [String.data_append] at e'
  rcases hpre : pre.data with _ | ⟨c, pre'⟩
  · exact String.ext hpre
  · exfalso
    rw [hpre, hd] at e'
    simp only [List.cons_append, List.cons.injEq] at e'
    have hclean : noPI (('?' :: xmlHeader.data.drop 2) ++ xml.data) = true :=
      noPI_append (noPI_of_noLt hnl) h
    exact noPI_not_infix hclean pre' _ (by simpa using e'.2)

theorem buildFeed_rawFree (c : Context) (posts : List Post) :
    rawFree (buildFeed c posts).Author
      ∧ ∀ e ∈ (buildFeed c posts).Entries, rawFree e.Author := by
  constructor
  · intro x hx
    cases hx
  · intro e he
    rw [buildFeed_Entries, List.mem_map] at he
    obtain ⟨post, -, rfl⟩ := he
    intro x hx
    cases hx
    rfl

/-- When the query succeeds the handler always gets a document from
`MarshalIndent` and ends with `c.Blob`. -/
theorem GlobalFeed_ok (c : Context) (posts : List Post)
    (h : c.Dispatch (searchQuery c) = .ok posts) :
    ∃ feedXML : String, MarshalIndent (buildFeed c posts) "" "\t" = .ok feedXML
      ∧ noPI feedXML.data = true
      ∧ GlobalFeed c = .Blob 200 "application/atom+xml" (xmlHeader ++ feedXML) := by
  obtain ⟨xml, h1, h2⟩ := MarshalIndent_ok (buildFeed c posts) (buildFeed_rawFree c posts).1
    (buildFeed_rawFree c posts).2
  refine ⟨xml, h1, h2, ?_⟩
  have h' : c.Dispatch
      { Query := c.QueryParam "query", View := "all", Limit := "30",
        Tags := c.QueryParamAsArray "tags" } = .ok posts := h
  simp only [GlobalFeed, h', h1]

/-! ## C9 and C10: the response -/

/-- C9: when the query succeeds and the feed serialises (which it always does,
see `GlobalFeed_ok`), the handler answers with status 200, content type
`application/atom+xml` and a body that is the line
`<?xml version="1.0" encoding="utf-8"?>`, a newline, and the marshalled document,
which starts with the `feed` start tag; the declaration is nowhere else in the
body. -/
theorem feed_response_bytes (c : Context) (posts : List Post) (feedXML : String)
    (hq : c.Dispatch (searchQuery c) = .ok posts)
    (hx : MarshalIndent (buildFeed c posts) "" "\t" = .ok feedXML) :
    GlobalFeed c = .Blob 200 "application/atom+xml"
        ("<?xml version=\"1.0\" encoding=\"utf-8\"?>\n" ++ feedXML)
      ∧ (∃ rest : String, feedXML = "<feed xmlns=\"http://www.w3.org/2005/Atom\">" ++ rest)
      ∧ ∀ pre suf : String,
          "<?xml version=\"1.0\" encoding=\"utf-8\"?>\n" ++ feedXML
              = pre ++ "<?xml version=\"1.0\" encoding=\"utf-8\"?>\n" ++ suf →
            pre = "" := by
  obtain ⟨xml, h1, h2, h3⟩ := GlobalFeed_ok c posts hq
  rw [hx] at h1
  cases h1
  rw [← xmlHeader_eq]
  exact ⟨h3, MarshalIndent_starts _ _ hx, header_once feedXML h2⟩

/-- Witness of `feed_response_bytes`: the empty feed of tenant Acme, in full. -/
theorem feed_response_bytes_witness :
    (sampleContext UTC []).Dispatch (searchQuery (sampleContext UTC [])) = .ok []
      ∧ MarshalIndent (buildFeed (sampleContext UTC []) []) "" "\t" = .ok
          ("<feed xmlns=\"http://www.w3.org/2005/Atom\">\n"
            ++ "\t<title>Acme</title>\n"
            ++ "\t<subtitle type=\"\">Welcome</subtitle>\n"
            ++ "\t<id>https://acme.example</id>\n"
            ++ "\t<updated>1970-01-01T00:00:00+00:00</updated>\n"
            ++ "\t<link rel=\"self\" href=\"https://acme.example/feed.atom\" type=\"application/atom+xml\"></link>\n"
            ++ "\t<link rel=\"alternate\" href=\"https://acme.example\" type=\"text/html\"></link>\n"
            ++ "</feed>")
      ∧ GlobalFeed (sampleContext UTC []) = .Blob 200 "application/atom+xml"
          ("<?xml version=\"1.0\" encoding=\"utf-8\"?>\n"
            ++ ("<feed xmlns=\"http://www.w3.org/2005/Atom\">\n"
            ++ "\t<title>Acme</title>\n"
            ++ "\t<subtitle type=\"\">Welcome</subtitle>\n"
            ++ "\t<id>https://acme.example</id>\n"
            ++ "\t<updated>1970-01-01T00:00:00+00:00</updated>\n"
            ++ "\t<link rel=\"self\" href=\"https://acme.example/feed.atom\" type=\"application/atom+xml\"></link>\n"
            ++ "\t<link rel=\"alternate\" href=\"https://acme.example\" type=\"text/html\"></link>\n"
            ++ "</feed>")) :=
  have hx : MarshalIndent (buildFeed (sampleContext UTC []) []) "" "\t" = .ok
          ("<feed xmlns=\"http://www.w3.org/2005/Atom\">\n"
            ++ "\t<title>Acme</title>\n"
            ++ "\t<subtitle type=\"\">Welcome</subtitle>\n"
            ++ "\t<id>https://acme.example</id>\n"
            ++ "\t<updated>1970-01-01T00:00:00+00:00</updated>\n"
            ++ "\t<link rel=\"self\" href=\"https://acme.example/feed.atom\" type=\"application/atom+xml\"></link>\n"
            ++ "\t<link rel=\"alternate\" href=\"https://acme.example\" type=\"text/html\"></link>\n"
            ++ "</feed>") := by
    set_option maxRecDepth 100000 in rfl
  ⟨rfl, hx, (feed_response_bytes (sampleContext UTC []) [] _ rfl hx).1⟩

/-- C10: when the query fails the handler ends through `c.Failure` with the
query's error and writes no document; when it succeeds the handler marshals the
feed built from exactly the posts of the query and writes it. -/
theorem query_error_propagates (c : Context) :
    (∀ err, c.Dispatch (searchQuery c) = .error err →
        GlobalFeed c = .Failure err
          ∧ ∀ code contentType body, GlobalFeed c ≠ .Blob code contentType body)
      ∧ (∀ posts, c.Dispatch (searchQuery c) = .ok posts →
          ∃ feedXML : String, MarshalIndent (buildFeed c posts) "" "\t" = .ok feedXML
            ∧ GlobalFeed c = .Blob 200 "application/atom+xml" (xmlHeader ++ feedXML)) := by
  constructor
  · intro err h
    have h' : c.Dispatch
        { Query := c.QueryParam "query", View := "all", Limit := "30",
          Tags := c.QueryParamAsArray "tags" } = .error err := h
    have hf : GlobalFeed c = .Failure err := by
      simp only [GlobalFeed, h']
    refine ⟨hf, ?_⟩
    intro code contentType body hb
    rw [hf] at hb
    cases hb
  · intro posts h
    obtain ⟨xml, h1, -, h3⟩ := GlobalFeed_ok c posts h
    exact ⟨xml, h1, h3⟩

/-- Witness of `query_error_propagates`: a failing query, and a query with one post. -/
theorem query_error_propagates_witness :
    (failingContext.Dispatch (searchQuery failingContext) = .error "db down"
        ∧ GlobalFeed failingContext = .Failure "db down")
      ∧ ((sampleContext UTC [ideaA]).Dispatch (searchQuery (sampleContext UTC [ideaA]))
            = .ok [ideaA]
        ∧ ∃ feedXML : String,
            MarshalIndent (buildFeed (sampleContext UTC [ideaA]) [ideaA]) "" "\t" = .ok feedXML
              ∧ GlobalFeed (sampleContext UTC [ideaA])
                  = .Blob 200 "application/atom+xml" (xmlHeader ++ feedXML)) :=
  ⟨⟨rfl, ((query_error_propagates failingContext).1 "db down" rfl).1⟩,
    ⟨rfl, (query_error_propagates (sampleContext UTC [ideaA])).2 [ideaA] rfl⟩⟩

/-! ## C15 and C17: the feed-level `updated` and the order of the posts -/

/-- The loop ends with `lastUpdate` equal to its start value, or to a timestamp
of the list that is strictly after the start value. -/
theorem foldl_loopBody_fst_strict (b : String) (posts : List Post) (st : Time × List Entry) :
    (posts.foldl (loopBody b) st).1 = st.1
      ∨ ((posts.foldl (loopBody b) st).1 ∈ allTimes posts
          ∧ (posts.foldl (loopBody b) st).1.After st.1 = true) := by
  induction posts generalizing st with
  | nil => left; rfl
  | cons p ps ih =>
    simp only [List.foldl_cons, allTimes, List.flatMap_cons, List.mem_append]
    have hstep : (loopBody b st p).1 = st.1
        ∨ ((loopBody b st p).1 ∈ postTimes p ∧ (loopBody b st p).1.After st.1 = true) := by
      obtain ⟨acc, es⟩ := st
      cases hr : p.Response with
      | none =>
        simp only [loopBody, postTimes, hr]
        rcases later_cases p.CreatedAt acc with h | h
        · right; rw [h.1]; exact ⟨by simp, h.2⟩
        · left; exact h.1
      | some r =>
        simp only [loopBody, postTimes, hr]
        rcases later_cases r.RespondedAt (if p.CreatedAt.After acc then p.CreatedAt else acc)
          with h | h
        · right
          rw [h.1]
          refine ⟨by simp, ?_⟩
          have h1 := h.2
          have h2 := later_ge_acc p.CreatedAt acc
          rw [Bool.eq_false_iff, Ne, After_iff] at h2
          rw [After_iff] at h1 ⊢
          omega
        · rw [h.1]
          rcases later_cases p.CreatedAt acc with h2 | h2
          · right; rw [h2.1]; exact ⟨by simp, h2.2⟩
          · left; exact h2.1
    have hmono := (loopBody_fst b st p).2.1
    rcases ih (loopBody b st p) with h | ⟨h1, h2⟩
    · rw [h]
      rcases hstep with g | ⟨g1, g2⟩
      · left; exact g
      · right; exact ⟨Or.inl g1, g2⟩
    · right
      refine ⟨Or.inr h1, ?_⟩
      rw [Bool.eq_false_iff, Ne, After_iff] at hmono
      rw [After_iff] at h2 ⊢
      omega

/-- Two values of type `time.Time` of which neither is after the other are the
same instant. -/
theorem same_instant_of_not_After {t u : Time} (ht : t.representable = true)
    (hu : u.representable = true) (h1 : t.After u = false) (h2 : u.After t = false) :
    t.sec = u.sec ∧ t.nsec = u.nsec := by
  rw [After_eq_laterThan ht hu, Bool.eq_false_iff, Ne, laterThan_iff] at h1
  rw [After_eq_laterThan hu ht, Bool.eq_false_iff, Ne, laterThan_iff] at h2
  omega

theorem allTimes_perm {posts posts2 : List Post} (h : posts.Perm posts2) (t : Time) :
    t ∈ allTimes posts ↔ t ∈ allTimes posts2 := by
  simp only [allTimes, List.mem_flatMap]
  constructor
  · rintro ⟨p, hp, ht⟩; exact ⟨p, h.mem_iff.mp hp, ht⟩
  · rintro ⟨p, hp, ht⟩; exact ⟨p, h.mem_iff.mpr hp, ht⟩

theorem formatTime_of_same_zone {t u : Time} (hs : t.sec = u.sec)
    (hz : t.zoneOffset = u.zoneOffset) : formatTime t = formatTime u := by
  apply formatTime_congr
  simp only [Time.civil, hs, hz]

/-- C15: whatever the posts (their timestamps being values of type `time.Time`,
seconds since year 1 in the `int64` range), the feed's `updated` is the formatted
value of a time that is the Unix epoch (the start value `time.UnixMilli(0)`, at
second 0 and nanosecond 0) or one of the creation and response timestamps of the
posts, and neither the epoch nor any of these timestamps is a later instant. -/
theorem feed_updated_upper_bound (c : Context) (posts : List Post)
    (hv : ∀ t ∈ allTimes posts, t.representable = true) :
    ∃ t : Time, (buildFeed c posts).Updated = formatTime t
      ∧ (t = UnixMilli c.Local 0 ∨ t ∈ allTimes posts)
      ∧ (UnixMilli c.Local 0).sec = 0 ∧ (UnixMilli c.Local 0).nsec = 0
      ∧ (UnixMilli c.Local 0).laterThan t = false
      ∧ ∀ u ∈ allTimes posts, u.laterThan t = false := by
  obtain ⟨h1, h2, h3⟩ := foldl_loopBody_fst c.BaseURL posts (UnixMilli c.Local 0, [])
  have hr : ((posts.foldl (loopBody c.BaseURL) (UnixMilli c.Local 0, [])).1).representable
      = true := by
    rcases h1 with h1 | h1
    · rw [h1]; exact UnixMilli_zero_representable c.Local
    · exact hv _ h1
  refine ⟨_, buildFeed_Updated c posts, h1, by rw [UnixMilli_zero], by rw [UnixMilli_zero],
    ?_, ?_⟩
  · rw [← After_eq_laterThan (UnixMilli_zero_representable c.Local) hr]
    exact h2
  · intro u hu
    rw [← After_eq_laterThan (hv u hu) hr]
    exact h3 u hu

/-- Witness of `feed_updated_upper_bound`: a post from before 1970 and a post
with a response in 2023. -/
theorem feed_updated_upper_bound_witness :
    (∀ t ∈ allTimes [oldPost, ideaB], t.representable = true)
      ∧ ∃ t : Time,
          (buildFeed (sampleContext UTC [oldPost, ideaB]) [oldPost, ideaB]).Updated = formatTime t
            ∧ (t = UnixMilli UTC 0 ∨ t ∈ allTimes [oldPost, ideaB])
            ∧ (UnixMilli UTC 0).laterThan t = false
            ∧ ∀ u ∈ allTimes [oldPost, ideaB], u.laterThan t = false :=
  have hv : ∀ t ∈ allTimes [oldPost, ideaB], t.representable = true := by decide
  have h := feed_updated_upper_bound (sampleContext UTC [oldPost, ideaB]) [oldPost, ideaB] hv
  ⟨hv, h.choose, h.choose_spec.1, h.choose_spec.2.1, h.choose_spec.2.2.2.2.1,
    h.choose_spec.2.2.2.2.2⟩

/-- C17, as stated, fails: two posts created at the same instant, one shown in
UTC and one in a zone one hour east; the feed's `updated` is printed in the zone
of whichever comes first. -/
theorem feed_updated_depends_on_order :
    [ideaA, ideaEast].Perm [ideaEast, ideaA]
      ∧ (buildFeed (sampleContext UTC [ideaA, ideaEast]) [ideaA, ideaEast]).Updated
          = "2023-01-01T00:00:00+00:00"
      ∧ (buildFeed (sampleContext UTC [ideaA, ideaEast]) [ideaEast, ideaA]).Updated
          = "2023-01-01T01:00:00+01:00" := by
  refine ⟨List.Perm.swap _ _ _, by decide, by decide⟩

/-- C17 (amended): for posts whose timestamps are values of type `time.Time`
(seconds since year 1 in the `int64` range) and a permutation of them, the loop
ends at the same instant, and when timestamps of the list that are the same
instant carry the same zone offset the feed's `updated` string is the same. -/
theorem feed_updated_perm (c : Context) (posts posts2 : List Post) (hp : posts.Perm posts2)
    (hv : ∀ t ∈ allTimes posts, t.representable = true) :
    ((feedLoop c posts).1.sec = (feedLoop c posts2).1.sec
        ∧ (feedLoop c posts).1.nsec = (feedLoop c posts2).1.nsec)
      ∧ ((∀ t ∈ allTimes posts, ∀ u ∈ allTimes posts, t.sec = u.sec → t.nsec = u.nsec →
            t.zoneOffset = u.zoneOffset) →
          (buildFeed c posts).Updated = (buildFeed c posts2).Updated) := by
  obtain ⟨-, a2, a3⟩ := foldl_loopBody_fst c.BaseURL posts (UnixMilli c.Local 0, [])
  obtain ⟨-, b2, b3⟩ := foldl_loopBody_fst c.BaseURL posts2 (UnixMilli c.Local 0, [])
  have a1 := foldl_loopBody_fst_strict c.BaseURL posts (UnixMilli c.Local 0, [])
  have b1 := foldl_loopBody_fst_strict c.BaseURL posts2 (UnixMilli c.Local 0, [])
  simp only at a1 a2 a3 b1 b2 b3
  rw [buildFeed_Updated, buildFeed_Updated]
  simp only [feedLoop]
  generalize (posts.foldl (loopBody c.BaseURL) (UnixMilli c.Local 0, [])).1 = r at *
  generalize (posts2.foldl (loopBody c.BaseURL) (UnixMilli c.Local 0, [])).1 = r2 at *
  have hr : r.representable = true := by
    rcases a1 with h | ⟨h, -⟩
    · rw [h]; exact UnixMilli_zero_representable c.Local
    · exact hv r h
  have hr2 : r2.representable = true := by
    rcases b1 with h | ⟨h, -⟩
    · rw [h]; exact UnixMilli_zero_representable c.Local
    · exact hv r2 ((allTimes_perm hp r2).mpr h)
  have hle : r.After r2 = false ∧ r2.After r = false := by
    constructor
    · rcases a1 with h | ⟨h, -⟩
      · rw [h]; exact b2
      · exact b3 r ((allTimes_perm hp r).mp h)
    · rcases b1 with h | ⟨h, -⟩
      · rw [h]; exact a2
      · exact a3 r2 ((allTimes_perm hp r2).mpr h)
  have hsame := same_instant_of_not_After hr hr2 hle.1 hle.2
  refine ⟨hsame, ?_⟩
  intro hz
  rcases a1 with h | ⟨h, hgt⟩
  · rcases b1 with g | ⟨g, ggt⟩
    · rw [h, g]
    · rw [h] at hle
      rw [hle.2] at ggt
      exact absurd ggt (by simp)
  · rcases b1 with g | ⟨g, ggt⟩
    · rw [g] at hle
      rw [hle.1] at hgt
      exact absurd hgt (by simp)
    · exact formatTime_of_same_zone hsame.1
        (hz r h r2 ((allTimes_perm hp r2).mpr g) hsame.1 hsame.2)

/-- Witness of `feed_updated_perm`: two posts in both orders. -/
theorem feed_updated_perm_witness :
    [ideaA, ideaB].Perm [ideaB, ideaA]
      ∧ (∀ t ∈ allTimes [ideaA, ideaB], t.representable = true)
      ∧ (∀ t ∈ allTimes [ideaA, ideaB], ∀ u ∈ allTimes [ideaA, ideaB],
          t.sec = u.sec → t.nsec = u.nsec → t.zoneOffset = u.zoneOffset)
      ∧ (buildFeed (sampleContext UTC [ideaA, ideaB]) [ideaA, ideaB]).Updated
          = (buildFeed (sampleContext UTC [ideaA, ideaB]) [ideaB, ideaA]).Updated :=
  have hv : ∀ t ∈ allTimes [ideaA, ideaB], t.representable = true := by decide
  have hz : ∀ t ∈ allTimes [ideaA, ideaB], ∀ u ∈ allTimes [ideaA, ideaB],
      t.sec = u.sec → t.nsec = u.nsec → t.zoneOffset = u.zoneOffset := by
    intro t ht u hu _ _
    simp only [allTimes, List.flatMap_cons, List.flatMap_nil, postTimes, ideaA, ideaB,
      List.append_nil, List.cons_append, List.nil_append, List.mem_cons, List.mem_singleton,
      List.not_mem_nil, or_false] at ht hu
    rcases ht with rfl | rfl | rfl <;> rcases hu with rfl | rfl | rfl <;> rfl
  ⟨List.Perm.swap _ _ _, hv, hz,
    (feed_updated_perm (sampleContext UTC [ideaA, ideaB]) [ideaA, ideaB] [ideaB, ideaA]
      (List.Perm.swap _ _ _) hv).2 hz⟩

/-! ## C16: entry identifiers and link targets are injective in the post id -/

theorem digitChar_toNat (n : Nat) : (digitChar n).toNat - 48 = n % 10 := by
  unfold digitChar
  have h := Nat.mod_lt n (by decide : 10 > 0)
  generalize n % 10 = k at h
  interval_cases k <;> decide

theorem natDigitsAux_acc (fuel n : Nat) (acc : List Char) :
    natDigitsAux fuel n acc = natDigitsAux fuel n [] ++ acc := by
  induction fuel generalizing n acc with
  | zero => simp [natDigitsAux]
  | succ f ih =>
    unfold natDigitsAux
    split
    · simp
    · rw [ih (n / 10) (digitChar n :: acc), ih (n / 10) [digitChar n]]
      simp

theorem digitsValue_natDigitsAux (fuel n : Nat) (h : n < fuel) :
    digitsValue (natDigitsAux fuel n []) = n := by
  induction fuel generalizing n with
  | zero => omega
  | succ f ih =>
    unfold natDigitsAux
    split
    · rename_i h10
      simp only [digitsValue, List.foldl_cons, List.foldl_nil, Nat.zero_mul, Nat.zero_add]
      rw [digitChar_toNat]
      omega
    · rename_i h10
      rw [natDigitsAux_acc]
      have hv := ih (n / 10) (by omega)
      simp only [digitsValue, List.foldl_append, List.foldl_cons, List.foldl_nil] at hv ⊢
      rw [hv, digitChar_toNat]
      omega

theorem digitsValue_natDigits (n : Nat) : digitsValue (natDigits n) = n :=
  digitsValue_natDigitsAux (n + 1) n (by omega)

theorem natDigits_injective {m n : Nat} (h : natDigits m = natDigits n) : m = n := by
  rw [← digitsValue_natDigits m, ← digitsValue_natDigits n, h]

/-- `%d` gives different texts for different integers. -/
theorem fmtInt_injective {a b : Int} (h : fmtInt a = fmtInt b) : a = b := by
  have h' := congrArg String.data h
  simp only [fmtInt] at h'
  by_cases ha : a < 0 <;> by_cases hb : b < 0
  · simp only [ha, hb, if_true, List.singleton_append, List.cons.injEq, true_and] at h'
    have := natDigits_injective h'
    omega
  · simp only [ha, hb, if_true, if_false, List.singleton_append, List.nil_append] at h'
    have hd := natDigits_isDigit b.natAbs '-' (by rw [← h']; exact List.mem_cons_self _ _)
    exact absurd hd (by decide)
  · simp only [ha, hb, if_true, if_false, List.singleton_append, List.nil_append] at h'
    have hd := natDigits_isDigit a.natAbs '-' (by rw [h']; exact List.mem_cons_self _ _)
    exact absurd hd (by decide)
  · simp only [ha, hb, if_false, List.nil_append] at h'
    have := natDigits_injective h'
    omega

theorem String_append_left_cancel {a b c : String} (h : a ++ b = a ++ c) : b = c := by
  have h' := congrArg String.data h
  simp only [String.data_append] at h'
  exact String.ext (List.append_cancel_left h')

theorem String_append_right_cancel {a b c : String} (h : a ++ c = b ++ c) : a = b := by
  have h' := congrArg String.data h
  simp only [String.data_append] at h'
  exact String.ext (List.append_cancel_right h')

/-- C16: for a fixed base URL, posts with different ids get different entry ids,
different self-link targets and different alternate-link targets; a post list
with pairwise distinct ids gives a feed with pairwise distinct entry ids. -/
theorem entry_ids_injective (c : Context) :
    (∀ p q : Post, p.ID ≠ q.ID →
        (newEntry c.BaseURL p).Id ≠ (newEntry c.BaseURL q).Id
          ∧ (newEntry c.BaseURL p).Link.map Link.Href ≠ (newEntry c.BaseURL q).Link.map Link.Href
          ∧ c.BaseURL ++ "/feed/posts/" ++ fmtInt p.ID ++ ".atom"
              ≠ c.BaseURL ++ "/feed/posts/" ++ fmtInt q.ID ++ ".atom"
          ∧ c.BaseURL ++ "/posts/" ++ fmtInt p.ID ≠ c.BaseURL ++ "/posts/" ++ fmtInt q.ID)
      ∧ ∀ posts : List Post, (posts.map Post.ID).Nodup →
          ((buildFeed c posts).Entries.map Entry.Id).Nodup := by
  have hid : ∀ a b : Int, c.BaseURL ++ "/posts/" ++ fmtInt a = c.BaseURL ++ "/posts/" ++ fmtInt b →
      a = b := by
    intro a b h
    exact fmtInt_injective (String_append_left_cancel h)
  have hself : ∀ a b : Int, c.BaseURL ++ "/feed/posts/" ++ fmtInt a ++ ".atom"
      = c.BaseURL ++ "/feed/posts/" ++ fmtInt b ++ ".atom" → a = b := by
    intro a b h
    exact fmtInt_injective (String_append_left_cancel (String_append_right_cancel h))
  constructor
  · intro p q hne
    refine ⟨fun h => hne (hid _ _ h), ?_, fun h => hne (hself _ _ h), fun h => hne (hid _ _ h)⟩
    intro h
    simp only [newEntry, List.map_cons, List.map_nil, List.cons.injEq, and_true] at h
    exact hne (hid _ _ h.2)
  · intro posts hnd
    rw [buildFeed_Entries, List.map_map]
    have e : (Entry.Id ∘ newEntry c.BaseURL)
        = (fun i : Int => c.BaseURL ++ "/posts/" ++ fmtInt i) ∘ Post.ID := rfl
    rw [e, ← List.map_map]
    exact hnd.map (fun a b h => hid a b h)

/-- Witness of `entry_ids_injective`: the posts with ids 1 and 2. -/
theorem entry_ids_injective_witness :
    ideaA.ID ≠ ideaB.ID
      ∧ (newEntry "https://acme.example" ideaA).Id ≠ (newEntry "https://acme.example" ideaB).Id
      ∧ ([ideaA, ideaB].map Post.ID).Nodup
      ∧ ((buildFeed (sampleContext UTC [ideaA, ideaB]) [ideaA, ideaB]).Entries.map Entry.Id).Nodup :=
  ⟨by decide,
    ((entry_ids_injective (sampleContext UTC [ideaA, ideaB])).1 ideaA ideaB (by decide)).1,
    by decide,
    (entry_ids_injective (sampleContext UTC [ideaA, ideaB])).2 [ideaA, ideaB] (by decide)⟩

/-! ## C12 and C13: the children of `entry` and of `feed` -/

/-- C12: the children of the `entry` element of a post are, in this order,
`title`, `id`, `published`, then `updated` exactly when the post has a response,
the `self` link, the `alternate` link, `author` and `summary`, and nothing else:
no `content` element, no `updated` element for a post without a response. -/
theorem entry_children (b : String) (post : Post) :
    children (marshalEntry (newEntry b post)) =
        [.StartElement ⟨"", "title"⟩ [], .StartElement ⟨"", "id"⟩ [],
          .StartElement ⟨"", "published"⟩ []]
        ++ (match post.Response with
            | none => []
            | some _ => [.StartElement ⟨"", "updated"⟩ []])
        ++ [.StartElement ⟨"", "link"⟩
              [⟨"rel", "self"⟩, ⟨"href", b ++ "/feed/posts/" ++ fmtInt post.ID ++ ".atom"⟩,
                ⟨"type", "application/atom+xml"⟩],
            .StartElement ⟨"", "link"⟩
              [⟨"rel", "alternate"⟩, ⟨"href", b ++ "/posts/" ++ fmtInt post.ID⟩,
                ⟨"type", "text/html"⟩],
            .StartElement ⟨"", "author"⟩ [],
            .StartElement ⟨"", "summary"⟩ [⟨"type", "html"⟩]]
      ∧ startNames (children (marshalEntry (newEntry b post))) =
          ["title", "id", "published"]
            ++ (if post.Response.isSome then ["updated"] else [])
            ++ ["link", "link", "author", "summary"] := by
  rw [marshalEntry_newEntry]
  cases post.Response <;> exact ⟨rfl, rfl⟩

theorem childStarts_entry (b : String) (post : Post) (rest : List Token) :
    childStarts 1 (marshalEntry (newEntry b post) ++ rest)
      = .StartElement ⟨"", "entry"⟩ [] :: childStarts 1 rest := by
  rw [marshalEntry_newEntry]
  cases post.Response <;> rfl

theorem childStarts_entries (b : String) (posts : List Post) (rest : List Token) :
    childStarts 1 ((posts.map (newEntry b)).flatMap marshalEntry ++ rest)
      = posts.map (fun _ => .StartElement ⟨"", "entry"⟩ []) ++ childStarts 1 rest := by
  induction posts with
  | nil => rfl
  | cons p ps ih =>
    simp only [List.map_cons, List.flatMap_cons, List.append_assoc, childStarts_entry, ih,
      List.cons_append]

/-- C13: the children of the `feed` element are, in this order, `title`,
`subtitle`, `id`, `updated`, the `self` link, the `alternate` link and one
`entry` per post; there is no feed-level `author`, the handler sets none. -/
theorem feed_children (c : Context) (posts : List Post) :
    children (marshalFeed (buildFeed c posts)) =
        [.StartElement ⟨"", "title"⟩ [], .StartElement ⟨"", "subtitle"⟩ [⟨"type", ""⟩],
          .StartElement ⟨"", "id"⟩ [], .StartElement ⟨"", "updated"⟩ [],
          .StartElement ⟨"", "link"⟩
            [⟨"rel", "self"⟩, ⟨"href", c.BaseURL ++ "/feed.atom"⟩,
              ⟨"type", "application/atom+xml"⟩],
          .StartElement ⟨"", "link"⟩
            [⟨"rel", "alternate"⟩, ⟨"href", c.BaseURL⟩, ⟨"type", "text/html"⟩]]
        ++ posts.map (fun _ => .StartElement ⟨"", "entry"⟩ [])
      ∧ startNames (children (marshalFeed (buildFeed c posts))) =
          ["title", "subtitle", "id", "updated", "link", "link"]
            ++ List.replicate posts.length "entry"
      ∧ (buildFeed c posts).Author = none
      ∧ countStart "author" (children (marshalFeed (buildFeed c posts))) = 0 := by
  have e : marshalFeed (buildFeed c posts) =
      [.StartElement ⟨"http://www.w3.org/2005/Atom", "feed"⟩ [],
        .StartElement ⟨"", "title"⟩ [], .CharData c.Tenant.Name, .EndElement ⟨"", "title"⟩,
        .StartElement ⟨"", "subtitle"⟩ [⟨"type", ""⟩], .CharData c.Tenant.WelcomeMessage,
        .EndElement ⟨"", "subtitle"⟩,
        .StartElement ⟨"", "id"⟩ [], .CharData c.BaseURL, .EndElement ⟨"", "id"⟩,
        .StartElement ⟨"", "updated"⟩ [], .CharData (buildFeed c posts).Updated,
        .EndElement ⟨"", "updated"⟩,
        .StartElement ⟨"", "link"⟩
          [⟨"rel", "self"⟩, ⟨"href", c.BaseURL ++ "/feed.atom"⟩, ⟨"type", "application/atom+xml"⟩],
        .EndElement ⟨"", "link"⟩,
        .StartElement ⟨"", "link"⟩
          [⟨"rel", "alternate"⟩, ⟨"href", c.BaseURL⟩, ⟨"type", "text/html"⟩],
        .EndElement ⟨"", "link"⟩]
      ++ ((posts.map (newEntry c.BaseURL)).flatMap marshalEntry
        ++ [.EndElement ⟨"http://www.w3.org/2005/Atom", "feed"⟩]) := by
    rw [← buildFeed_Entries]
    simp [marshalFeed, marshalString, marshalContent, marshalLink, linkAttrs, marshalAuthor,
      buildFeed]
  have hch : children (marshalFeed (buildFeed c posts)) =
      [.StartElement ⟨"", "title"⟩ [], .StartElement ⟨"", "subtitle"⟩ [⟨"type", ""⟩],
        .StartElement ⟨"", "id"⟩ [], .StartElement ⟨"", "updated"⟩ [],
        .StartElement ⟨"", "link"⟩
          [⟨"rel", "self"⟩, ⟨"href", c.BaseURL ++ "/feed.atom"⟩,
            ⟨"type", "application/atom+xml"⟩],
        .StartElement ⟨"", "link"⟩
          [⟨"rel", "alternate"⟩, ⟨"href", c.BaseURL⟩, ⟨"type", "text/html"⟩]]
      ++ posts.map (fun _ => .StartElement ⟨"", "entry"⟩ []) := by
    rw [e]
    have step : ∀ rest : List Token, children
        ([.StartElement ⟨"http://www.w3.org/2005/Atom", "feed"⟩ [],
          .StartElement ⟨"", "title"⟩ [], .CharData c.Tenant.Name, .EndElement ⟨"", "title"⟩,
          .StartElement ⟨"", "subtitle"⟩ [⟨"type", ""⟩], .CharData c.Tenant.WelcomeMessage,
          .EndElement ⟨"", "subtitle"⟩,
          .StartElement ⟨"", "id"⟩ [], .CharData c.BaseURL, .EndElement ⟨"", "id"⟩,
          .StartElement ⟨"", "updated"⟩ [], .CharData (buildFeed c posts).Updated,
          .EndElement ⟨"", "updated"⟩,
          .StartElement ⟨"", "link"⟩
            [⟨"rel", "self"⟩, ⟨"href", c.BaseURL ++ "/feed.atom"⟩,
              ⟨"type", "application/atom+xml"⟩],
          .EndElement ⟨"", "link"⟩,
          .StartElement ⟨"", "link"⟩
            [⟨"rel", "alternate"⟩, ⟨"href", c.BaseURL⟩, ⟨"type", "text/html"⟩],
          .EndElement ⟨"", "link"⟩] ++ rest)
        = [.StartElement ⟨"", "title"⟩ [], .StartElement ⟨"", "subtitle"⟩ [⟨"type", ""⟩],
            .StartElement ⟨"", "id"⟩ [], .StartElement ⟨"", "updated"⟩ [],
            .StartElement ⟨"", "link"⟩
              [⟨"rel", "self"⟩, ⟨"href", c.BaseURL ++ "/feed.atom"⟩,
                ⟨"type", "application/atom+xml"⟩],
            .StartElement ⟨"", "link"⟩
              [⟨"rel", "alternate"⟩, ⟨"href", c.BaseURL⟩, ⟨"type", "text/html"⟩]]
          ++ childStarts 1 rest := fun _ => rfl
    rw [step, childStarts_entries]
    simp [childStarts]
  refine ⟨hch, ?_, rfl, ?_⟩
  · rw [hch]
    simp only [startNames, List.filterMap_append, List.filterMap_map]
    have : ∀ n : Nat, ∀ l : List Post, l.length = n →
        List.filterMap ((fun t : Token => match t with
          | .StartElement n _ => some n.Local
          | _ => none) ∘ fun _ => Token.StartElement ⟨"", "entry"⟩ []) l
          = List.replicate n "entry" := by
      intro n l hl
      subst hl
      induction l with
      | nil => rfl
      | cons x xs ih => simp [List.filterMap_cons, List.replicate_succ, ih]
    rw [this posts.length posts rfl]
    rfl
  · rw [hch]
    simp only [countStart, List.filter_append, List.length_append]
    have : ∀ l : List Post, (List.filter (fun t : Token => match t with
          | .StartElement n _ => decide (n.Local = "author")
          | _ => false) (l.map fun _ => Token.StartElement ⟨"", "entry"⟩ [])) = [] := by
      intro l
      induction l with
      | nil => rfl
      | cons x xs ih => simp [List.filter_cons, ih]
    rw [this]
    rfl

/-! ## C14: the attributes of a link -/

/-- C14: a link is written with its `href` always, and with each of `rel`,
`type`, `hreflang`, `title`, `length` exactly when the field is not empty, resp.
not zero, and with no other attribute; every link of a feed built by the handler,
at feed level or in an entry, is written with exactly `rel`, `href` and `type`. -/
theorem link_attributes (l : Link) :
    (marshalLink l = [.StartElement ⟨"", "link"⟩ (linkAttrs l), .EndElement ⟨"", "link"⟩]
      ∧ (linkAttrs l).filter (fun a => a.Name ≠ "") = linkAttrs l
      ∧ ⟨"href", l.Href⟩ ∈ linkAttrs l
      ∧ (∀ v, ⟨"rel", v⟩ ∈ linkAttrs l ↔ (v = l.Rel ∧ l.Rel ≠ ""))
      ∧ (∀ v, ⟨"type", v⟩ ∈ linkAttrs l ↔ (v = l.Typ ∧ l.Typ ≠ ""))
      ∧ (∀ v, ⟨"hreflang", v⟩ ∈ linkAttrs l ↔ (v = l.HrefLang ∧ l.HrefLang ≠ ""))
      ∧ (∀ v, ⟨"title", v⟩ ∈ linkAttrs l ↔ (v = l.Title ∧ l.Title ≠ ""))
      ∧ (∀ v, ⟨"length", v⟩ ∈ linkAttrs l ↔ (v = String.mk (natDigits l.Length) ∧ l.Length ≠ 0))
      ∧ (∀ a ∈ linkAttrs l, a.Name ∈ ["rel", "href", "type", "hreflang", "title", "length"]))
      ∧ ∀ (c : Context) (posts : List Post),
          (∀ k ∈ (buildFeed c posts).Link, (linkAttrs k).map Attr.Name = ["rel", "href", "type"])
            ∧ ∀ e ∈ (buildFeed c posts).Entries, ∀ k ∈ e.Link,
                (linkAttrs k).map Attr.Name = ["rel", "href", "type"] := by
  constructor
  · refine ⟨rfl, ?_, ?_, ?_, ?_, ?_, ?_, ?_, ?_⟩
    · by_cases h1 : l.Rel = "" <;> by_cases h2 : l.Typ = "" <;> by_cases h3 : l.HrefLang = ""
        <;> by_cases h4 : l.Title = "" <;> by_cases h5 : l.Length = 0
        <;> simp [linkAttrs, h1, h2, h3, h4, h5, List.filter_cons]
    · simp [linkAttrs]
    · intro v
      by_cases h1 : l.Rel = "" <;> by_cases h2 : l.Typ = "" <;> by_cases h3 : l.HrefLang = ""
        <;> by_cases h4 : l.Title = "" <;> by_cases h5 : l.Length = 0
        <;> simp [linkAttrs, h1, h2, h3, h4, h5]
    · intro v
      by_cases h1 : l.Rel = "" <;> by_cases h2 : l.Typ = "" <;> by_cases h3 : l.HrefLang = ""
        <;> by_cases h4 : l.Title = "" <;> by_cases h5 : l.Length = 0
        <;> simp [linkAttrs, h1, h2, h3, h4, h5]
    · intro v
      by_cases h1 : l.Rel = "" <;> by_cases h2 : l.Typ = "" <;> by_cases h3 : l.HrefLang = ""
        <;> by_cases h4 : l.Title = "" <;> by_cases h5 : l.Length = 0
        <;> simp [linkAttrs, h1, h2, h3, h4, h5]
    · intro v
      by_cases h1 : l.Rel = "" <;> by_cases h2 : l.Typ = "" <;> by_cases h3 : l.HrefLang = ""
        <;> by_cases h4 : l.Title = "" <;> by_cases h5 : l.Length = 0
        <;> simp [linkAttrs, h1, h2, h3, h4, h5]
    · intro v
      by_cases h1 : l.Rel = "" <;> by_cases h2 : l.Typ = "" <;> by_cases h3 : l.HrefLang = ""
        <;> by_cases h4 : l.Title = "" <;> by_cases h5 : l.Length = 0
        <;> simp [linkAttrs, h1, h2, h3, h4, h5]
    · intro a ha
      simp only [linkAttrs, List.mem_append] at ha
      rcases ha with ((((ha | ha) | ha) | ha) | ha) | ha
      all_goals (try split at ha)
      all_goals simp at ha
      all_goals (subst ha; simp)
  · intro c posts
    constructor
    · intro k hk
      simp only [buildFeed, List.mem_cons, List.mem_singleton, List.not_mem_nil, or_false] at hk
      rcases hk with rfl | rfl <;> rfl
    · intro e he k hk
      rw [buildFeed_Entries, List.mem_map] at he
      obtain ⟨post, -, rfl⟩ := he
      simp only [newEntry, List.mem_cons, List.mem_singleton, List.not_mem_nil, or_false] at hk
      rcases hk with rfl | rfl <;> rfl

/-! ## C11: escaped text is read back unchanged -/

theorem unescapeFrom_escapeRune (c : Char) (hc : isInCharacterRange c.toNat = true)
    (rest : List Char) :
    unescapeFrom none ((escapeRune c).data ++ rest) = (unescapeFrom none rest).map (c :: ·) := by
  unfold escapeRune
  split_ifs with h1 h2 h3 h4 h5 h6 h7 h8 h9
  · subst h1; rfl
  · subst h2; rfl
  · subst h3; rfl
  · subst h4; rfl
  · subst h5; rfl
  · subst h6; rfl
  · subst h7; rfl
  · subst h8; rfl
  · rw [hc] at h9
    exact absurd h9 (by simp)
  · simp only [String.data_singleton, List.singleton_append, unescapeFrom, h3, h4, if_false]
    rfl

theorem unescapeFrom_escape (l : List Char) (h : ∀ c ∈ l, isInCharacterRange c.toNat = true) :
    unescapeFrom none (l.flatMap fun c => (escapeRune c).data) = some l := by
  induction l with
  | nil => rfl
  | cons c cs ih =>
    rw [List.flatMap_cons, unescapeFrom_escapeRune c (h c (List.mem_cons_self _ _)),
      ih (fun x hx => h x (List.mem_cons_of_mem _ hx))]
    rfl

/-- A character that XML does not allow is written as U+FFFD. -/
theorem escapeRune_invalid (c : Char) (h : isInCharacterRange c.toNat = false) :
    escapeRune c = String.singleton (Char.ofNat 0xFFFD) := by
  unfold escapeRune
  split_ifs with h1 h2 h3 h4 h5 h6 h7 h8 h9
  · subst h1; exact absurd h (by decide)
  · subst h2; exact absurd h (by decide)
  · subst h3; exact absurd h (by decide)
  · subst h4; exact absurd h (by decide)
  · subst h5; exact absurd h (by decide)
  · subst h6; exact absurd h (by decide)
  · subst h7; exact absurd h (by decide)
  · subst h8; exact absurd h (by decide)
  · rfl
  · rw [h] at h9
    exact absurd h9 (by simp)

theorem unescapeFrom_escapeRune_any (c : Char) (rest : List Char) :
    unescapeFrom none ((escapeRune c).data ++ rest)
      = (unescapeFrom none rest).map
          ((if isInCharacterRange c.toNat then c else Char.ofNat 0xFFFD) :: ·) := by
  cases h : isInCharacterRange c.toNat with
  | true => simpa using unescapeFrom_escapeRune c h rest
  | false =>
    rw [escapeRune_invalid c h]
    rfl

theorem unescapeFrom_escape_any (l : List Char) :
    unescapeFrom none (l.flatMap fun c => (escapeRune c).data)
      = some (l.map fun c => if isInCharacterRange c.toNat then c else Char.ofNat 0xFFFD) := by
  induction l with
  | nil => rfl
  | cons c cs ih =>
    rw [List.flatMap_cons, unescapeFrom_escapeRune_any, ih]
    rfl

/-- Escaped text is read back with every character that XML does not allow
replaced by U+FFFD. -/
theorem unescapeText_EscapeString_any (s : String) :
    unescapeText (EscapeString s) = some (replaceInvalid s) := by
  simp only [unescapeText, EscapeString, unescapeFrom_escape_any, Option.map_some',
    replaceInvalid]

/-- Escaped text of characters that XML allows is read back unchanged. -/
theorem unescapeText_EscapeString (s : String)
    (h : ∀ c ∈ s.data, isInCharacterRange c.toNat = true) :
    unescapeText (EscapeString s) = some s := by
  simp only [unescapeText, EscapeString, unescapeFrom_escape s.data h, Option.map_some']

/-- Writing an indent before a start tag leaves the printer just indented in. -/
theorem writeIndent_one_indentedIn (p : printer) (hp : p.tabbed) :
    (p.writeIndent 1).indentedIn = true := by
  obtain ⟨h1, h2⟩ := hp
  have hne : ¬ (p.pfx.length = 0 ∧ p.indent.length = 0) := by
    intro h
    rw [h2] at h
    exact absurd h.2 (by decide)
  unfold printer.writeIndent
  rw [if_neg hne]
  by_cases hn : p.putNewline = true <;> simp [hn]

/-- Before an end tag nothing is written when the printer was just indented in. -/
theorem writeIndent_neg_out (p : printer) (hp : p.tabbed) (hi : p.indentedIn = true) :
    (p.writeIndent (-1)).out = p.out ∧ (p.writeIndent (-1)).tabbed := by
  obtain ⟨h1, h2⟩ := hp
  have hne : ¬ (p.pfx.length = 0 ∧ p.indent.length = 0) := by
    intro h
    rw [h2] at h
    exact absurd h.2 (by decide)
  unfold printer.writeIndent
  rw [if_neg hne]
  simp [hi, printer.tabbed, h1, h2]

theorem emitAll_tabbed (p q : printer) (toks : List Token) (hp : p.tabbed)
    (h : p.emitAll toks = .ok q) : q.tabbed := by
  induction toks generalizing p with
  | nil => cases h; exact hp
  | cons t ts ih =>
    rw [emitAll_cons] at h
    cases ht : p.emit t with
    | error err => rw [ht] at h; cases h
    | ok q1 =>
      rw [ht] at h
      obtain ⟨_, -, hq1⟩ := emit_out p q1 t hp ht
      exact ih q1 hq1 h

theorem emitAll_append_ok (p q : printer) (a b : List Token) (h : p.emitAll (a ++ b) = .ok q) :
    ∃ q1 : printer, p.emitAll a = .ok q1 ∧ q1.emitAll b = .ok q := by
  rw [emitAll_append] at h
  cases ha : p.emitAll a with
  | error err => rw [ha] at h; cases h
  | ok q1 => rw [ha] at h; exact ⟨q1, rfl, h⟩

theorem emit_start_spec (p q : printer) (n : Name) (attr : List Attr) (hp : p.tabbed)
    (h : p.emit (.StartElement n attr) = .ok q) :
    q.tabbed ∧ q.indentedIn = true ∧ ∃ w : String, q.out = p.out ++ w ++ startTagText n attr := by
  simp only [printer.emit, printer.writeStart] at h
  split at h
  · cases h
  · have hp1 : printer.tabbed { p with tags := p.tags ++ [n] } := hp
    obtain ⟨w1, hw1, -⟩ := writeIndent_spec { p with tags := p.tags ++ [n] } hp1 1
    have hin := writeIndent_one_indentedIn { p with tags := p.tags ++ [n] } hp1
    cases h
    refine ⟨⟨hw1.2.1.trans hp.1, hw1.2.2.1.trans hp.2⟩, hin, w1, ?_⟩
    simp only []
    rw [hw1.1]

theorem emit_end_spec (p q : printer) (n : Name) (hp : p.tabbed) (hi : p.indentedIn = true)
    (h : p.emit (.EndElement n) = .ok q) :
    q.tabbed ∧ q.out = p.out ++ ("</" ++ n.Local ++ ">") := by
  simp only [printer.emit, printer.writeEnd] at h
  split at h
  · cases h
  · split at h
    · cases h
    · split at h
      · cases h
      · split at h
        · cases h
        · have hp1 : printer.tabbed { p with tags := p.tags.dropLast } := hp
          obtain ⟨e1, e2⟩ := writeIndent_neg_out { p with tags := p.tags.dropLast } hp1 hi
          cases h
          refine ⟨e2, ?_⟩
          simp only []
          rw [e1]
          simp only [String.append_assoc]

/-- The text of an element that holds only character data: start tag, escaped
text, end tag, with nothing in between. -/
theorem emitAll_text_element (p q : printer) (n : Name) (attr : List Attr) (s : String)
    (hp : p.tabbed)
    (h : p.emitAll [.StartElement n attr, .CharData s, .EndElement n] = .ok q) :
    q.tabbed ∧ ∃ w : String,
      q.out = p.out ++ w ++ (startTagText n attr ++ EscapeString s ++ ("</" ++ n.Local ++ ">")) := by
  rw [emitAll_cons] at h
  cases h1 : p.emit (.StartElement n attr) with
  | error err => rw [h1] at h; cases h
  | ok q1 =>
    rw [h1] at h
    simp only at h
    obtain ⟨t1, i1, w, o1⟩ := emit_start_spec p q1 n attr hp h1
    rw [emitAll_cons] at h
    have h2 : q1.emit (.CharData s) = .ok { q1 with out := q1.out ++ EscapeString s } := rfl
    rw [h2] at h
    simp only at h
    rw [emitAll_cons] at h
    cases h3 : printer.emit { q1 with out := q1.out ++ EscapeString s } (.EndElement n) with
    | error err => rw [h3] at h; cases h
    | ok q3 =>
      rw [h3] at h
      simp only [printer.emitAll] at h
      cases h
      obtain ⟨t3, o3⟩ := emit_end_spec { q1 with out := q1.out ++ EscapeString s } _ n t1 i1 h3
      refine ⟨t3, w, ?_⟩
      rw [o3]
      simp only []
      rw [o1]
      simp only [String.append_assoc]

theorem eq_ok_of_okIs {r : Except Error String} {s : String} (h : okIs r s = true) : r = .ok s := by
  cases r with
  | error e => simp [okIs] at h
  | ok x =>
    simp only [okIs, beq_iff_eq] at h
    rw [h]

/-- The text of every element with only character data among the tokens is in
the text the printer writes. -/
theorem emitAll_infix_text (p q : printer) (toks : List Token) (n : Name) (attr : List Attr)
    (s : String) (hp : p.tabbed) (h : p.emitAll toks = .ok q)
    (hin : [.StartElement n attr, .CharData s, .EndElement n] <:+: toks) :
    ∃ A B : String,
      q.out = A ++ (startTagText n attr ++ EscapeString s ++ ("</" ++ n.Local ++ ">")) ++ B := by
  obtain ⟨pre, suf, rfl⟩ := hin
  obtain ⟨q2, h12, h3⟩ := emitAll_append_ok _ _ _ _ h
  obtain ⟨q1, h1, h2⟩ := emitAll_append_ok _ _ _ _ h12
  have t1 := emitAll_tabbed _ _ _ hp h1
  obtain ⟨t2, w, o2⟩ := emitAll_text_element q1 q2 n attr s t1 h2
  obtain ⟨w3, o3⟩ := emitAll_out _ _ _ t2 h3
  exact ⟨q1.out ++ w, w3, by rw [o3, o2]⟩

theorem marshalEntry_infix_feed (c : Context) (posts : List Post) (post : Post)
    (hp : post ∈ posts) :
    marshalEntry (newEntry c.BaseURL post) <:+: marshalFeed (buildFeed c posts) := by
  obtain ⟨l1, l2, rfl⟩ := List.append_of_mem hp
  refine ⟨[.StartElement ⟨"http://www.w3.org/2005/Atom", "feed"⟩ []]
      ++ marshalString "title" false (buildFeed c (l1 ++ post :: l2)).Title
      ++ marshalContent "subtitle" (buildFeed c (l1 ++ post :: l2)).Subtitle
      ++ marshalString "id" false (buildFeed c (l1 ++ post :: l2)).Id
      ++ marshalString "updated" false (buildFeed c (l1 ++ post :: l2)).Updated
      ++ (buildFeed c (l1 ++ post :: l2)).Link.flatMap marshalLink
      ++ marshalAuthor (buildFeed c (l1 ++ post :: l2)).Author
      ++ (l1.map (newEntry c.BaseURL)).flatMap marshalEntry,
    (l2.map (newEntry c.BaseURL)).flatMap marshalEntry
      ++ [.EndElement ⟨"http://www.w3.org/2005/Atom", "feed"⟩], ?_⟩
  simp only [marshalFeed, buildFeed_Entries, List.map_append, List.map_cons,
    List.flatMap_append, List.flatMap_cons, List.append_assoc]

theorem title_infix_entry (b : String) (post : Post) :
    [Token.StartElement ⟨"", "title"⟩ [], .CharData post.Title, .EndElement ⟨"", "title"⟩]
      <:+: marshalEntry (newEntry b post) := by
  rw [marshalEntry_newEntry]
  exact ⟨[.StartElement ⟨"", "entry"⟩ []], _, rfl⟩

theorem summary_infix_entry (b : String) (post : Post) :
    [Token.StartElement ⟨"", "summary"⟩ [⟨"type", "html"⟩], .CharData post.Description,
        .EndElement ⟨"", "summary"⟩]
      <:+: marshalEntry (newEntry b post) := by
  rw [marshalEntry_newEntry]
  refine List.IsInfix.trans ?_ (List.suffix_append _ _).isInfix
  exact ⟨[.StartElement ⟨"", "link"⟩
        [⟨"rel", "self"⟩, ⟨"href", b ++ "/feed/posts/" ++ fmtInt post.ID ++ ".atom"⟩,
          ⟨"type", "application/atom+xml"⟩],
      .EndElement ⟨"", "link"⟩,
      .StartElement ⟨"", "link"⟩
        [⟨"rel", "alternate"⟩, ⟨"href", b ++ "/posts/" ++ fmtInt post.ID⟩,
          ⟨"type", "text/html"⟩],
      .EndElement ⟨"", "link"⟩,
      .StartElement ⟨"", "author"⟩ [],
      .StartElement ⟨"", "name"⟩ [], .CharData post.User.Name, .EndElement ⟨"", "name"⟩,
      .InnerXML "",
      .EndElement ⟨"", "author"⟩], [.EndElement ⟨"", "entry"⟩], rfl⟩

/-- The text of an element with only character data among the tokens of a feed
is part of the marshalled document. -/
theorem MarshalIndent_infix_text (f : AtomFeed) (xml : String)
    (hx : MarshalIndent f "" "\t" = .ok xml) (n : Name) (attr : List Attr) (s : String)
    (hin : [.StartElement n attr, .CharData s, .EndElement n] <:+: marshalFeed f) :
    ∃ A B : String,
      xml = A ++ (startTagText n attr ++ EscapeString s ++ ("</" ++ n.Local ++ ">")) ++ B := by
  simp only [MarshalIndent] at hx
  split at hx
  · cases hx
  · rename_i q hq
    cases hx
    exact emitAll_infix_text _ _ _ n attr s ⟨rfl, rfl⟩ hq hin

/-- C11, as stated, fails: a title that is the control character U+0001 is
written as U+FFFD, and that is what is read back. -/
theorem control_character_not_round_trip :
    EscapeString controlPost.Title = String.singleton (Char.ofNat 0xFFFD)
      ∧ unescapeText (EscapeString controlPost.Title) = some (String.singleton (Char.ofNat 0xFFFD))
      ∧ unescapeText (EscapeString controlPost.Title) ≠ some controlPost.Title
      ∧ ∃ xml A B : String,
          MarshalIndent (buildFeed (sampleContext UTC [controlPost]) [controlPost]) "" "\t" = .ok xml
            ∧ xml = A ++ ("<title>" ++ String.singleton (Char.ofNat 0xFFFD) ++ "</title>") ++ B := by
  refine ⟨by decide, by decide, by decide, ?_⟩
  obtain ⟨xml, hx, -⟩ := MarshalIndent_ok (buildFeed (sampleContext UTC [controlPost]) [controlPost])
    (buildFeed_rawFree _ _).1 (buildFeed_rawFree _ _).2
  obtain ⟨A, B, h⟩ := MarshalIndent_infix_text _ xml hx ⟨"", "title"⟩ [] controlPost.Title
    ((title_infix_entry _ controlPost).trans
      (marshalEntry_infix_feed (sampleContext UTC [controlPost]) [controlPost] controlPost
        (List.mem_singleton.mpr rfl)))
  exact ⟨xml, A, B, hx, h⟩

/-- C11 (amended): the title and the description of a post are written as the
text of the `title` and `summary` elements with `&`, `<`, `>`, the quotes, tab,
line feed and carriage return replaced by references, so that no `<` is left in
them, and with every character that XML does not allow (a character outside tab,
line feed, carriage return, U+0020 to U+D7FF, U+E000 to U+FFFD, U+10000 to
U+10FFFF) written as U+FFFD. Reading the escaped text back gives the title and
the description with every such character replaced by U+FFFD: the original
title, resp. description, when all its characters are characters XML allows. -/
theorem title_description_round_trip (c : Context) (posts : List Post) (post : Post)
    (xml : String) (hp : post ∈ posts)
    (hx : MarshalIndent (buildFeed c posts) "" "\t" = .ok xml) :
    (∃ A B : String, xml = A ++ ("<title>" ++ EscapeString post.Title ++ "</title>") ++ B)
      ∧ (∃ A B : String,
          xml = A ++ ("<summary type=\"html\">" ++ EscapeString post.Description ++ "</summary>")
            ++ B)
      ∧ (∀ x ∈ (EscapeString post.Title).data, x ≠ '<')
      ∧ (∀ x ∈ (EscapeString post.Description).data, x ≠ '<')
      ∧ (∀ ch : Char, isInCharacterRange ch.toNat = false →
          escapeRune ch = String.singleton (Char.ofNat 0xFFFD))
      ∧ unescapeText (EscapeString post.Title) = some (replaceInvalid post.Title)
      ∧ unescapeText (EscapeString post.Description) = some (replaceInvalid post.Description)
      ∧ ((∀ ch ∈ post.Title.data, isInCharacterRange ch.toNat = true) →
          unescapeText (EscapeString post.Title) = some post.Title)
      ∧ ((∀ ch ∈ post.Description.data, isInCharacterRange ch.toNat = true) →
          unescapeText (EscapeString post.Description) = some post.Description) := by
  have hfeed := marshalEntry_infix_feed c posts post hp
  refine ⟨?_, ?_, EscapeString_noLt _, EscapeString_noLt _, escapeRune_invalid,
    unescapeText_EscapeString_any _, unescapeText_EscapeString_any _,
    unescapeText_EscapeString _, unescapeText_EscapeString _⟩
  · exact MarshalIndent_infix_text _ xml hx ⟨"", "title"⟩ [] post.Title
      ((title_infix_entry _ post).trans hfeed)
  · have e : startTagText ⟨"", "summary"⟩ [⟨"type", "html"⟩] = "<summary type=\"html\">" := by
      decide
    rw [← e]
    exact MarshalIndent_infix_text _ xml hx ⟨"", "summary"⟩ [⟨"type", "html"⟩] post.Description
      ((summary_infix_entry _ post).trans hfeed)

/-- Witness of `title_description_round_trip`: the post `ideaB`, whose
description is `x < y`. -/
theorem title_description_round_trip_witness :
    ideaB ∈ [ideaB]
      ∧ MarshalIndent (buildFeed (sampleContext UTC [ideaB]) [ideaB]) "" "\t" = .ok ideaBDocument
      ∧ (∀ ch ∈ ideaB.Description.data, isInCharacterRange ch.toNat = true)
      ∧ (∃ A B : String,
          ideaBDocument = A ++ ("<summary type=\"html\">" ++ "x &lt; y" ++ "</summary>") ++ B)
      ∧ unescapeText (EscapeString ideaB.Description) = some ideaB.Description
      ∧ unescapeText "x &lt; y" = some "x < y" :=
  have hx : MarshalIndent (buildFeed (sampleContext UTC [ideaB]) [ideaB]) "" "\t"
      = .ok ideaBDocument :=
    eq_ok_of_okIs (by set_option maxRecDepth 1000000 in decide)
  have hd : ∀ ch ∈ ideaB.Description.data, isInCharacterRange ch.toNat = true := by decide
  have h := title_description_round_trip (sampleContext UTC [ideaB]) [ideaB] ideaB ideaBDocument
    (List.mem_singleton.mpr rfl) hx
  have e : EscapeString ideaB.Description = "x &lt; y" := by decide
  ⟨List.mem_singleton.mpr rfl, hx, hd, by rw [← e]; exact h.2.1, h.2.2.2.2.2.2.2.2 hd,
    by decide⟩

end Feed
